import Mathlib

/-
Verification of the hookshot audio hook-detection core (energy.js, sections.js,
index.js). Shallow embedding conventions:

- JS numbers are modelled exactly: ℚ for frame geometry, durations and scores
  that stay rational, ℝ for signal values that pass through sqrt / cos / log2.
  Floating-point rounding is not modelled.
- The JS initializers best = -Infinity and min = Infinity are modelled with
  WithBot / WithTop; a loop that never runs leaves the bottom / top element,
  exactly as the JS value stays infinite.
- Array reads a[i] with the JS fallbacks (a[i] ?? 0, a[i] || 0) become
  List.getD _ i 0.
- fft.js computes the discrete Fourier transform of the complex input; the
  magnitude spectrum is embedded as the mathematical DFT magnitudes.
-/

namespace Hookshot

/-- JS Math.floor on a rational. -/
def jsFloor (q : ℚ) : ℤ := ⌊q⌋

/-- JS Math.round on a rational: round half toward positive infinity. -/
def jsRound (q : ℚ) : ℤ := ⌊q + 1/2⌋

/-- Loop body of nextPow2 (energy.js lines 8-12, sections.js line 7):
while (p < n) p <<= 1.  Fuel n is enough because doubling 1 n times
reaches 2^n ≥ n. -/
def nextPow2Go (n : ℕ) : ℕ → ℕ → ℕ
  | 0, p => p
  | fuel + 1, p => if p < n then nextPow2Go n fuel (2 * p) else p

/-- nextPow2 from energy.js lines 8-12 and sections.js line 7. -/
def nextPow2 (n : ℕ) : ℕ := nextPow2Go n n 1

theorem nextPow2Go_ge (n : ℕ) : ∀ fuel p, n ≤ p * 2 ^ fuel → n ≤ nextPow2Go n fuel p := by
  intro fuel
  induction fuel with
  | zero => intro p h; simpa [nextPow2Go] using h
  | succ fuel ih =>
    intro p h
    by_cases hp : p < n
    · simp only [nextPow2Go, if_pos hp]
      exact ih (2 * p) (by calc n ≤ p * 2 ^ (fuel + 1) := h
                             _ = 2 * p * 2 ^ fuel := by ring)
    · simpa [nextPow2Go, hp] using Nat.le_of_not_lt hp

theorem nextPow2Go_pow (n : ℕ) : ∀ fuel k, ∃ m, nextPow2Go n fuel (2 ^ k) = 2 ^ m := by
  intro fuel
  induction fuel with
  | zero => intro k; exact ⟨k, rfl⟩
  | succ fuel ih =>
    intro k
    by_cases hp : 2 ^ k < n
    · simp only [nextPow2Go, if_pos hp]
      have : 2 * 2 ^ k = 2 ^ (k + 1) := by ring
      rw [this]
      exact ih (k + 1)
    · exact ⟨k, by simp [nextPow2Go, hp]⟩

theorem nextPow2Go_min (n : ℕ) : ∀ fuel j m, n ≤ 2 ^ j * 2 ^ fuel → n ≤ 2 ^ m → j ≤ m →
    nextPow2Go n fuel (2 ^ j) ≤ 2 ^ m := by
  intro fuel
  induction fuel with
  | zero =>
    intro j m _ _ hjm
    simpa [nextPow2Go] using Nat.pow_le_pow_right (by norm_num) hjm
  | succ fuel ih =>
    intro j m hfuel hm hjm
    by_cases hp : 2 ^ j < n
    · simp only [nextPow2Go, if_pos hp]
      have hjm' : j + 1 ≤ m := by
        rcases Nat.lt_or_ge j m with h | h
        · exact h
        · exfalso
          have : 2 ^ m ≤ 2 ^ j := Nat.pow_le_pow_right (by norm_num) h
          omega
      have h2 : 2 * 2 ^ j = 2 ^ (j + 1) := by ring
      rw [h2]
      refine ih (j + 1) m ?_ hm hjm'
      calc n ≤ 2 ^ j * 2 ^ (fuel + 1) := hfuel
        _ = 2 ^ (j + 1) * 2 ^ fuel := by ring
    · simp only [nextPow2Go, if_neg hp]
      exact Nat.pow_le_pow_right (by norm_num) hjm

theorem nextPow2_isLeast (n : ℕ) (_hn : 1 ≤ n) :
    IsLeast {m : ℕ | n ≤ m ∧ ∃ k, m = 2 ^ k} (nextPow2 n) := by
  have hfuel : n ≤ 1 * 2 ^ n := by
    simpa using Nat.le_of_lt (Nat.lt_two_pow n)
  constructor
  · refine ⟨nextPow2Go_ge n n 1 (by simpa using hfuel), ?_⟩
    have := nextPow2Go_pow n n 0
    simpa [nextPow2] using this
  · rintro m ⟨hnm, k, rfl⟩
    have := nextPow2Go_min n n 0 k (by simpa using hfuel) hnm (Nat.zero_le k)
    simpa [nextPow2] using this

/-- Target frame size of the unified extractor (energy.js line 62):
Math.max(2, Math.floor(sampleRate * frameSec)). -/
def targetSizeE (sampleRate : ℕ) (frameSec : ℚ) : ℕ :=
  max 2 (jsFloor ((sampleRate : ℚ) * frameSec)).toNat

/-- Frame length of the unified extractor (energy.js line 63). -/
def frameSizeE (sampleRate : ℕ) (frameSec : ℚ) : ℕ := nextPow2 (targetSizeE sampleRate frameSec)

/-- Hop length of the unified extractor (energy.js line 64): Math.floor(frameSize / 2). -/
def hopE (sampleRate : ℕ) (frameSec : ℚ) : ℕ := frameSizeE sampleRate frameSec / 2

/-- Target frame size of the STFT pass (sections.js line 45). -/
def targetSizeS (sampleRate : ℕ) (frameSec : ℚ) : ℕ :=
  max 2 (jsFloor ((sampleRate : ℚ) * frameSec)).toNat

/-- Frame length N of the STFT pass (sections.js line 46). -/
def frameSizeS (sampleRate : ℕ) (frameSec : ℚ) : ℕ := nextPow2 (targetSizeS sampleRate frameSec)

/-- Hop length H of the STFT pass (sections.js line 47):
Math.max(1, Math.floor(N * hopRatio)). -/
def hopS (sampleRate : ℕ) (frameSec hopRatio : ℚ) : ℕ :=
  max 1 (jsFloor ((frameSizeS sampleRate frameSec : ℚ) * hopRatio)).toNat

/-- Frame count Math.max(1, Math.floor((samples.length - frameSize) / hop) + 1)
(energy.js line 65, energy.js line 210, sections.js line 50).  The JS division
is an exact division of integers floored, i.e. integer floor division; hop is
always ≥ 1 at every call site. -/
def nFramesOf (len frameSize hop : ℕ) : ℕ :=
  (max 1 (((len : ℤ) - (frameSize : ℤ)).fdiv (hop : ℤ) + 1)).toNat

theorem targetSizeE_eq_targetSizeS (sampleRate : ℕ) (frameSec : ℚ) :
    targetSizeE sampleRate frameSec = targetSizeS sampleRate frameSec := rfl

theorem two_le_frameSizeE (sampleRate : ℕ) (frameSec : ℚ) :
    2 ≤ frameSizeE sampleRate frameSec := by
  have h := (nextPow2_isLeast (targetSizeE sampleRate frameSec) (by
    have : 2 ≤ targetSizeE sampleRate frameSec := le_max_left _ _
    omega)).1.1
  exact le_trans (le_max_left _ _) h

theorem one_le_nFramesOf (len frameSize hop : ℕ) : 1 ≤ nFramesOf len frameSize hop := by
  unfold nFramesOf
  omega

/-- C9 (corrected): the analysis frame length of both spectral passes is the
smallest power of two that is at least max(2, floor(sampleRate * frameSec)).
The product sampleRate * frameSec is floored BEFORE rounding up to a power of
two, so the frame length can be smaller than sampleRate * frameSec itself. -/
theorem frame_length_smallest_pow2_above_floored_target (sampleRate : ℕ) (frameSec : ℚ) :
    frameSizeE sampleRate frameSec = frameSizeS sampleRate frameSec ∧
    IsLeast {m : ℕ | targetSizeE sampleRate frameSec ≤ m ∧ ∃ k, m = 2 ^ k}
      (frameSizeE sampleRate frameSec) ∧
    2 ≤ frameSizeE sampleRate frameSec := by
  refine ⟨rfl, ?_, two_le_frameSizeE sampleRate frameSec⟩
  exact nextPow2_isLeast _ (le_trans (by norm_num) (le_max_left 2 _))

/-- C9 counterexample: with sampleRate = 45 and frameSec = 0.1 the product is
4.5, but the frame length used by the code is 4, which is NOT ≥ 4.5; the
claimed "smallest power of two greater than or equal to
sampleRate * frameDurationSec" would be 8. -/
theorem frame_length_not_pow2_above_product :
    frameSizeE 45 (1/10) = 4 ∧ ¬ ((45 : ℚ) * (1/10) ≤ ((frameSizeE 45 (1/10) : ℕ) : ℚ)) := by
  have ht : targetSizeE 45 (1/10) = 4 := by
    norm_num [targetSizeE, jsFloor]
    rfl
  have hf : frameSizeE 45 (1/10) = 4 := by
    rw [frameSizeE, ht]
    rfl
  refine ⟨hf, ?_⟩
  rw [hf]
  norm_num

/- ---------------- Method selector (index.js, auto mode) ---------------- -/

/-- Winner of the method selection in index.js. -/
inductive Method
  | energy
  | chorus
deriving DecidableEq

/-- Fields of a hook result that the auto-mode selector reads (index.js lines
109-113): a score, and optionally scoreMin / scoreMax from the window scan.
findChorusHook supplies all three; findBestHook supplies only score, so its
scoreMin / scoreMax are absent (none). -/
structure SelScore where
  score : ℚ
  scoreMin : Option ℚ
  scoreMax : Option ℚ

/-- Result of findBestHook as seen by the selector: no scan range fields. -/
def energySel (score : ℚ) : SelScore := ⟨score, none, none⟩

/-- JS (x || 1): substitute 1 when the value is 0. -/
def jsOrOne (x : ℚ) : ℚ := if x = 0 then 1 else x

/-- norm from index.js line 109: (s - lo) / ((hi - lo) || 1). -/
def normSel (s lo hi : ℚ) : ℚ := (s - lo) / jsOrOne (hi - lo)

/-- Normalized score as computed in index.js lines 110-111:
norm(x.score, x.scoreMin ?? x.score, x.scoreMax ?? x.score + 1e-9). -/
def autoNorm (x : SelScore) : ℚ :=
  normSel x.score (x.scoreMin.getD x.score) (x.scoreMax.getD (x.score + 1/1000000000))

/-- Auto-mode decision of index.js line 112: chorus iff bN > aN * 1.05. -/
def autoSelect (a b : SelScore) : Method :=
  if autoNorm b > autoNorm a * (21/20) then Method.chorus else Method.energy

/-- Modelled from the spec: the selection rule as the claim states it, applied
to the two already-normalized scores — pick chorus over energy exactly when
normalizedChorusScore > normalizedEnergyScore * 1.05. -/
def claimSelect (nE nC : ℚ) : Method :=
  if nC > nE * (21/20) then Method.chorus else Method.energy

/-- C1 counterexample: an energy result whose winning score is 0.8 (so that
min-max normalization over an observed scan range [0,1] would give the
normalized 0.80 of the claim scenario) against a chorus result normalizing to
0.83.  The claim rule picks energy (0.83 < 0.84), but the code picks chorus,
because the energy side of the code normalizes to 0, not 0.80. -/
theorem auto_selector_counterexample :
    autoSelect (energySel (4/5)) ⟨83/100, some 0, some 1⟩ = Method.chorus ∧
    autoNorm ⟨83/100, some 0, some 1⟩ = 83/100 ∧
    claimSelect (4/5) (83/100) = Method.energy := by
  refine ⟨?_, ?_, ?_⟩
  · simp only [autoSelect, autoNorm, energySel, normSel, jsOrOne]
    norm_num
  · simp only [autoNorm, normSel, jsOrOne]
    norm_num
  · simp only [claimSelect]
    norm_num

/-- C1 (corrected): in auto mode the chorus score is normalized with its own
scan range, but a findBestHook result carries no scoreMin / scoreMax, so the
?? fallbacks normalize the energy score against the degenerate range
[score, score + 1e-9]: the normalized energy score is always 0, and chorus is
picked exactly when the normalized chorus score is positive. -/
theorem auto_selector_energy_norm_degenerate (s : ℚ) (b : SelScore) :
    autoNorm (energySel s) = 0 ∧
    autoSelect (energySel s) b = (if 0 < autoNorm b then Method.chorus else Method.energy) := by
  have hz : autoNorm (energySel s) = 0 := by
    simp [autoNorm, energySel, normSel, jsOrOne]
  refine ⟨hz, ?_⟩
  simp only [autoSelect, hz, zero_mul]

/- ---------------- Series operations (polymorphic in the number type) ------ -/

section SeriesOps

variable {α : Type} [LinearOrderedField α]

/-- Running minimum starting from Infinity, as in the JS loops
if (v < min) min = v (energy.js lines 295-299, sections.js lines 160-161). -/
def listMin (xs : List α) : WithTop α :=
  xs.foldl (fun m a => if (a : WithTop α) < m then (a : WithTop α) else m) ⊤

/-- Running maximum starting from -Infinity. -/
def listMax (xs : List α) : WithBot α :=
  xs.foldl (fun m a => if m < (a : WithBot α) then (a : WithBot α) else m) ⊥

/-- Min-max normalization with range guard (max - min) || 1 (the normalize
helper of findBestHook, energy.js lines 294-306, and the closing normalization
of repetitionScore, sections.js lines 159-163).  The unwrap default 0 is
unobservable: on a nonempty list both folds are finite, and on the empty list
the output is empty. -/
def minmaxNormalize (xs : List α) : List α :=
  xs.map (fun a =>
    let mn := (listMin xs).untop' 0
    let mx := (listMax xs).unbot' 0
    let rng := if mx - mn = 0 then 1 else mx - mn
    (a - mn) / rng)

/-- smooth1D (sections.js lines 28-41): centered moving average with
half = Math.floor(win / 2); the inner loop over j = i-half .. i+half skips
out-of-bounds indices, and the count guard is (count || 1). -/
def smooth1D (x : List α) (win : ℕ) : List α :=
  if x.length = 0 ∨ win ≤ 1 then x else
  (List.range x.length).map (fun (i : ℕ) =>
    let half := win / 2
    let sc := (List.range (2 * half + 1)).foldl (fun (p : α × ℕ) (t : ℕ) =>
      if (i : ℤ) + (t : ℤ) - (half : ℤ) < 0 ∨ (x.length : ℤ) ≤ (i : ℤ) + (t : ℤ) - (half : ℤ)
      then p
      else (p.1 + x.getD ((i : ℤ) + (t : ℤ) - (half : ℤ)).toNat 0, p.2 + 1)) (0, 0)
    sc.1 / (if sc.2 = 0 then 1 else (sc.2 : α)))

/-- Raw (unsmoothed) novelty of computeNovelty (energy.js lines 178-184):
novelty[0] = 0, novelty[i] = max(0, series[i] - series[i-1]). -/
def rawNovelty (series : List α) : List α :=
  (List.range series.length).map (fun i =>
    if i = 0 then 0 else max 0 (series.getD i 0 - series.getD (i - 1) 0))

/-- computeNovelty (energy.js lines 177-202): raw novelty followed by a
centered moving average whose loop runs j = max(0, i-5) .. min(len-1, i+5),
i.e. windowSize = 5 is used as a RADIUS here. -/
def computeNovelty (series : List α) : List α :=
  (List.range series.length).map (fun i =>
    let novelty := rawNovelty series
    let lo := i - 5
    let hi := min (series.length - 1) (i + 5)
    let sc := (List.range' lo (hi + 1 - lo)).foldl
      (fun (p : α × ℕ) j => (p.1 + novelty.getD j 0, p.2 + 1)) (0, 0)
    sc.1 / (sc.2 : α))

/-- Modelled from the spec: centered moving average of radius r — each output
value is the mean of the input over indices [i-r, i+r] clipped to the series
bounds. -/
def specSmooth (r : ℕ) (x : List α) : List α :=
  (List.range x.length).map (fun i =>
    let lo := i - r
    let hi := min (x.length - 1) (i + r)
    (((List.range' lo (hi + 1 - lo)).map (fun j => x.getD j 0)).sum) / ((hi + 1 - lo : ℕ) : α))

theorem foldl_sum_count (l : List ℕ) (f : ℕ → α) (a : α) (c : ℕ) :
    l.foldl (fun (p : α × ℕ) j => (p.1 + f j, p.2 + 1)) (a, c)
      = (a + (l.map f).sum, c + l.length) := by
  induction l generalizing a c with
  | nil => simp
  | cons x xs ih =>
    rw [List.foldl_cons, ih]
    refine Prod.ext ?_ ?_
    · simp [add_assoc]
    · simp
      omega

theorem foldl_skip_sum_count (l : List ℕ) (p : ℕ → Prop) [DecidablePred p]
    (f : ℕ → α) (a : α) (c : ℕ) :
    l.foldl (fun (q : α × ℕ) t => if p t then q else (q.1 + f t, q.2 + 1)) (a, c)
      = (a + (((l.filter (fun t => decide (¬ p t))).map f)).sum,
         c + ((l.filter (fun t => decide (¬ p t)))).length) := by
  induction l generalizing a c with
  | nil => simp
  | cons x xs ih =>
    rw [List.foldl_cons]
    by_cases hx : p x
    · rw [if_pos hx, ih]
      simp [hx]
    · rw [if_neg hx, ih]
      refine Prod.ext ?_ ?_
      · simp [hx, add_assoc]
      · simp [hx]
        omega

theorem filter_range_interval (n a b : ℕ) :
    (List.range n).filter (fun t => decide (a ≤ t ∧ t < b)) = List.range' a (min n b - a) := by
  induction n with
  | zero => simp
  | succ n ih =>
    rw [List.range_succ, List.filter_append, ih]
    by_cases h1 : a ≤ n ∧ n < b
    · have hcnt : min (n + 1) b - a = (min n b - a) + 1 := by omega
      have hn : a + 1 * (min n b - a) = n := by omega
      rw [hcnt, List.range'_concat, hn]
      simp [h1]
    · have hcnt : min (n + 1) b - a = min n b - a := by omega
      have : (List.filter (fun t => decide (a ≤ t ∧ t < b)) [n]) = [] := by
        simp
        omega
      rw [this, hcnt, List.append_nil]

theorem length_filter_range_interval (n a b : ℕ) :
    ((List.range n).filter (fun t => decide (a ≤ t ∧ t < b))).length = min n b - a := by
  rw [filter_range_interval, List.length_range']

theorem rawNovelty_length (series : List α) : (rawNovelty series).length = series.length := by
  simp [rawNovelty]

/-- C4 (corrected): the novelty series really is smoothed with a centered
moving average of radius 5, but smooth1D — the smoother applied to the
repetition series with win = 5 — uses half = floor(5/2) = 2, i.e. a centered
moving average of radius 2. -/
theorem novelty_radius5_repetition_smoother_radius2 (series x : List α) :
    computeNovelty series = specSmooth 5 (rawNovelty series) ∧
    smooth1D x 5 = specSmooth 2 x := by
  constructor
  · unfold computeNovelty specSmooth
    rw [rawNovelty_length]
    refine List.map_congr_left ?_
    intro i _
    simp only [foldl_sum_count, rawNovelty_length]
    simp [List.length_range']
  · by_cases hx : x.length = 0
    · have hnil : x = [] := List.length_eq_zero.mp hx
      subst hnil
      simp [smooth1D, specSmooth]
    · rw [smooth1D, if_neg (by simp [hx])]
      unfold specSmooth
      refine List.map_congr_left ?_
      intro i hi
      have hilen : i < x.length := List.mem_range.mp hi
      simp only [show (5 : ℕ)/2 = 2 from rfl, Nat.cast_ofNat, foldl_skip_sum_count, zero_add]
      have hfc : (List.range (2 * 2 + 1)).filter
            (fun (t : ℕ) => decide (¬ ((i : ℤ) + (t : ℤ) - 2 < 0 ∨
              (x.length : ℤ) ≤ (i : ℤ) + (t : ℤ) - 2)))
          = (List.range (2 * 2 + 1)).filter
            (fun (t : ℕ) => decide (2 - i ≤ t ∧ t < x.length + 2 - i)) := by
        refine List.filter_congr ?_
        intro t _
        refine decide_eq_decide.mpr ?_
        omega
      rw [hfc, filter_range_interval]
      have hm : min (2 * 2 + 1) (x.length + 2 - i) - (2 - i)
          = min (x.length - 1) (i + 2) + 1 - (i - 2) := by omega
      have hmaps : ((List.range' (2 - i) (min (2 * 2 + 1) (x.length + 2 - i) - (2 - i))).map
            (fun (t : ℕ) => x.getD ((i : ℤ) + (t : ℤ) - 2).toNat 0)).sum
          = ((List.range' (i - 2) (min (x.length - 1) (i + 2) + 1 - (i - 2))).map
            (fun j => x.getD j 0)).sum := by
        rw [List.range'_eq_map_range, List.range'_eq_map_range, List.map_map, List.map_map, ← hm]
        refine congrArg List.sum (List.map_congr_left ?_)
        intro t _
        simp only [Function.comp]
        congr 1
        omega
      rw [hmaps, List.length_range', if_neg (by omega), hm]

/-- C4 counterexample: on the concrete series [1,0,0,0,0,0], smooth1D with
win = 5 averages index 0 over radius 2 (value 1/3), while a radius-5 centered
moving average would give 1/6 — so the repetition-series smoother is NOT the
radius-5 average the claim describes. -/
theorem smooth1D_win5_not_radius5 :
    (smooth1D ([1, 0, 0, 0, 0, 0] : List ℚ) 5).getD 0 0 = 1/3 ∧
    (specSmooth 5 ([1, 0, 0, 0, 0, 0] : List ℚ)).getD 0 0 = 1/6 ∧
    smooth1D ([1, 0, 0, 0, 0, 0] : List ℚ) 5 ≠ specSmooth 5 ([1, 0, 0, 0, 0, 0] : List ℚ) := by
  have h1 : (smooth1D ([1, 0, 0, 0, 0, 0] : List ℚ) 5).getD 0 0 = 1/3 := by
    rw [smooth1D, if_neg (by norm_num)]
    norm_num [List.range_succ, List.foldl, List.getD, Int.toNat]
  have h2 : (specSmooth 5 ([1, 0, 0, 0, 0, 0] : List ℚ)).getD 0 0 = 1/6 := by
    unfold specSmooth
    norm_num [List.range_succ, List.range', List.getD]
  refine ⟨h1, h2, ?_⟩
  intro he
  rw [he] at h1
  rw [h1] at h2
  norm_num at h2

end SeriesOps

/- ---------------- Self-similarity (sections.js) ---------------- -/

theorem sum_map_range {M : Type} [AddCommMonoid M] (f : ℕ → M) (n : ℕ) :
    ((List.range n).map f).sum = ∑ t ∈ Finset.range n, f t := by
  induction n with
  | zero => simp
  | succ n ih =>
    rw [List.range_succ, List.map_append, List.sum_append, Finset.sum_range_succ, ih]
    simp

/-- cos from sections.js lines 15-20: cosine similarity with the zero-norm
guard (sqrt(na) * sqrt(nb)) || 1.  The loop runs over a.length; at every call
site both vectors are chroma vectors of length 12. -/
noncomputable def cos (a b : List ℝ) : ℝ :=
  let dot := ((List.range a.length).map (fun i => a.getD i 0 * b.getD i 0)).sum
  let na := ((List.range a.length).map (fun i => a.getD i 0 * a.getD i 0)).sum
  let nb := ((List.range a.length).map (fun i => b.getD i 0 * b.getD i 0)).sum
  let d := if Real.sqrt na * Real.sqrt nb = 0 then 1 else Real.sqrt na * Real.sqrt nb
  dot / d

/-- selfSimilarity from sections.js lines 102-110: S[i][j] = cos(C[i], C[j]). -/
noncomputable def selfSimilarity (C : List (List ℝ)) : List (List ℝ) :=
  C.map (fun ci => C.map (fun cj => cos ci cj))

theorem getD_map_of_lt {β γ : Type} (f : β → γ) (l : List β) (i : ℕ) (h : i < l.length)
    (d : γ) (d' : β) : (l.map f).getD i d = f (l.getD i d') := by
  rw [List.getD_eq_getElem _ _ (by simpa using h), List.getD_eq_getElem _ _ h, List.getElem_map]

theorem cos_comm (a b : List ℝ) (h : a.length = b.length) : cos a b = cos b a := by
  unfold cos
  simp only []
  rw [h]
  have hdot : ((List.range b.length).map (fun i => a.getD i 0 * b.getD i 0)).sum
      = ((List.range b.length).map (fun i => b.getD i 0 * a.getD i 0)).sum := by
    refine congrArg List.sum (List.map_congr_left ?_)
    intro i _
    exact mul_comm _ _
  rw [hdot]
  by_cases hz : Real.sqrt (((List.range b.length).map (fun i => a.getD i 0 * a.getD i 0)).sum)
      * Real.sqrt (((List.range b.length).map (fun i => b.getD i 0 * b.getD i 0)).sum) = 0
  · rw [if_pos hz, if_pos (by rw [mul_comm]; exact hz)]
  · rw [if_neg hz, if_neg (by rw [mul_comm]; exact hz), mul_comm]

theorem cos_self_of_nonzero (a : List ℝ) (h : ∃ y ∈ a, y ≠ 0) : cos a a = 1 := by
  obtain ⟨y, hy, hy0⟩ := h
  obtain ⟨idx, hidx, rfl⟩ := List.mem_iff_getElem.mp hy
  unfold cos
  simp only []
  have hna : (0 : ℝ) < ((List.range a.length).map (fun i => a.getD i 0 * a.getD i 0)).sum := by
    rw [sum_map_range]
    refine Finset.sum_pos' (fun t _ => mul_self_nonneg _) ⟨idx, Finset.mem_range.mpr hidx, ?_⟩
    rw [List.getD_eq_getElem _ _ hidx]
    exact mul_self_pos.mpr hy0
  have hs : Real.sqrt (((List.range a.length).map (fun i => a.getD i 0 * a.getD i 0)).sum)
      * Real.sqrt (((List.range a.length).map (fun i => a.getD i 0 * a.getD i 0)).sum)
      = ((List.range a.length).map (fun i => a.getD i 0 * a.getD i 0)).sum :=
    Real.mul_self_sqrt (le_of_lt hna)
  rw [hs, if_neg (ne_of_gt hna)]
  exact div_self (ne_of_gt hna)

theorem cos_self_of_zero (a : List ℝ) (h : ∀ y ∈ a, y = 0) : cos a a = 0 := by
  unfold cos
  simp only []
  have hdot : ((List.range a.length).map (fun i => a.getD i 0 * a.getD i 0)).sum = 0 := by
    have : ∀ i ∈ List.range a.length, a.getD i 0 * a.getD i 0 = (fun _ => (0:ℝ)) i := by
      intro i hi
      have : a.getD i 0 = 0 := by
        rcases Nat.lt_or_ge i a.length with hlt | hge
        · rw [List.getD_eq_getElem _ _ hlt]
          exact h _ (List.getElem_mem hlt)
        · rw [List.getD_eq_default _ _ hge]
      rw [this, mul_zero]
    rw [List.map_congr_left this]
    simp
  rw [hdot]
  exact zero_div _

/-- C5 (corrected): the self-similarity matrix is symmetric for every
uniform-length chroma sequence, and the diagonal entry S[i][i] is 1 exactly
when the chroma vector C[i] has a nonzero component; for an all-zero chroma
vector (a silent frame) the zero-norm guard makes the diagonal entry 0, not
the claimed 1. -/
theorem selfSimilarity_symm_and_diag (C : List (List ℝ)) (n : ℕ)
    (hlen : ∀ v ∈ C, v.length = n) :
    (∀ i j, i < C.length → j < C.length →
      ((selfSimilarity C).getD i []).getD j 0 = ((selfSimilarity C).getD j []).getD i 0) ∧
    (∀ i, i < C.length →
      ((∃ y ∈ C.getD i [], y ≠ 0) → ((selfSimilarity C).getD i []).getD i 0 = 1) ∧
      ((∀ y ∈ C.getD i [], y = 0) → ((selfSimilarity C).getD i []).getD i 0 = 0)) := by
  have hentry : ∀ i j, i < C.length → j < C.length →
      ((selfSimilarity C).getD i []).getD j 0 = cos (C.getD i []) (C.getD j []) := by
    intro i j hi hj
    unfold selfSimilarity
    rw [getD_map_of_lt _ _ i hi [] [], getD_map_of_lt _ _ j hj 0 []]
  constructor
  · intro i j hi hj
    rw [hentry i j hi hj, hentry j i hj hi]
    refine cos_comm _ _ ?_
    have hmi : C.getD i [] ∈ C := by
      rw [List.getD_eq_getElem _ _ hi]
      exact List.getElem_mem hi
    have hmj : C.getD j [] ∈ C := by
      rw [List.getD_eq_getElem _ _ hj]
      exact List.getElem_mem hj
    rw [hlen _ hmi, hlen _ hmj]
  · intro i hi
    constructor
    · intro hy
      rw [hentry i i hi hi]
      exact cos_self_of_nonzero _ hy
    · intro hy
      rw [hentry i i hi hi]
      exact cos_self_of_zero _ hy

/-- Closed instance of the C5 theorem at a one-frame chroma sequence whose
vector has a nonzero component: the diagonal entry is 1. -/
theorem selfSimilarity_symm_and_diag_witness :
    (∀ v ∈ [(1 : ℝ) :: List.replicate 11 0], v.length = 12) ∧
    ((selfSimilarity [(1 : ℝ) :: List.replicate 11 0]).getD 0 []).getD 0 0 = 1 := by
  refine ⟨by simp, ?_⟩
  refine ((selfSimilarity_symm_and_diag [(1 : ℝ) :: List.replicate 11 0] 12
    (by simp)).2 0 (by simp)).1 ?_
  exact ⟨1, by simp, one_ne_zero⟩

/-- C5 counterexample: a chroma sequence containing the all-zero vector (a
perfectly silent frame) has S[0][0] = 0, refuting "every diagonal entry is
exactly 1". -/
theorem selfSimilarity_zero_vector_diag_ne_one :
    ((selfSimilarity [List.replicate 12 (0 : ℝ)]).getD 0 []).getD 0 0 = 0 ∧
    ((selfSimilarity [List.replicate 12 (0 : ℝ)]).getD 0 []).getD 0 0 ≠ 1 := by
  have h0 : ((selfSimilarity [List.replicate 12 (0 : ℝ)]).getD 0 []).getD 0 0 = 0 := by
    unfold selfSimilarity
    rw [getD_map_of_lt _ _ 0 (by simp) [] [], getD_map_of_lt _ _ 0 (by simp) 0 []]
    simp only [List.getD_cons_zero]
    refine cos_self_of_zero _ ?_
    intro y hy
    exact List.eq_of_mem_replicate hy
  exact ⟨h0, by rw [h0]; norm_num⟩

/- ---------------- Repetition scoring (sections.js) ---------------- -/

section Repetition

variable {α : Type} [LinearOrderedField α]

/-- safeCell (sections.js lines 22-26): 0 for a missing row, 0 for a column
index outside the row, else the cell. -/
def safeCell (S : List (List α)) (r : ℕ) (c : ℤ) : α :=
  match S.get? r with
  | none => 0
  | some row => if 0 ≤ c ∧ c < (row.length : ℤ) then row.getD c.toNat 0 else 0

/-- Options of repetitionScore (sections.js lines 121-125); every field is
given explicitly at the findChorusHook call site. -/
structure RepOpts where
  frameSec : ℚ
  minLagSec : ℚ
  maxLagSec : ℚ
  lagStepSec : ℚ
  bidirectional : Bool

/-- minLag (sections.js line 127). -/
def minLagOf (o : RepOpts) : ℕ := max 1 (jsRound (o.minLagSec / o.frameSec)).toNat

/-- maxLag (sections.js line 128). -/
def maxLagOf (o : RepOpts) : ℕ :=
  max (minLagOf o + 1) (jsRound (o.maxLagSec / o.frameSec)).toNat

/-- lagStep (sections.js line 129). -/
def lagStepOf (o : RepOpts) : ℕ := max 1 (jsRound (o.lagStepSec / o.frameSec)).toNat

/-- The lag progression d = minLag, minLag + lagStep, ... ≤ maxLag swept by
both directions (sections.js lines 135 and 146). -/
def lagList (o : RepOpts) : List ℕ :=
  List.range' (minLagOf o) ((maxLagOf o - minLagOf o) / lagStepOf o + 1) (lagStepOf o)

/-- Mean of one forward stripe: cells (i+k, i+d+k) for k < W, read through
safeCell, divided by W (sections.js lines 137-141). -/
def stripeFwdMean (S : List (List α)) (W i d : ℕ) : α :=
  (((List.range W).map (fun k => safeCell S (i + k) ((i : ℤ) + (d : ℤ) + (k : ℤ)))).sum) / (W : α)

/-- Mean of one backward stripe: cells (i+k, i-d+k) for k < W (sections.js
lines 148-152). -/
def stripeBwdMean (S : List (List α)) (W i d : ℕ) : α :=
  (((List.range W).map (fun k => safeCell S (i + k) ((i : ℤ) - (d : ℤ) + (k : ℤ)))).sum) / (W : α)

/-- Body of the per-frame loop of repetitionScore (sections.js lines 131-157):
forward lags are skipped when i + d + W > N, backward lags when i - d < 0 or
i - d + W > N; the frame score is sum / count, or 0 when count = 0. -/
def repRawAt (S : List (List α)) (W : ℕ) (o : RepOpts) (i : ℕ) : α :=
  let N := S.length
  let fwd := (lagList o).foldl (fun (p : α × ℕ) (d : ℕ) =>
      if N < i + d + W then p else (p.1 + stripeFwdMean S W i d, p.2 + 1)) (0, 0)
  let both := if o.bidirectional then
      (lagList o).foldl (fun (p : α × ℕ) (d : ℕ) =>
        if (i : ℤ) - (d : ℤ) < 0 ∨ (N : ℤ) < (i : ℤ) - (d : ℤ) + (W : ℤ) then p
        else (p.1 + stripeBwdMean S W i d, p.2 + 1)) fwd
    else fwd
  if both.2 = 0 then 0 else both.1 / (both.2 : α)

/-- Raw (pre-normalization) repetition series R of repetitionScore, with the
stripe width clamp W = max(1, min(w, N)) (sections.js line 119). -/
def repetitionScoreRaw (S : List (List α)) (w : ℕ) (o : RepOpts) : List α :=
  (List.range S.length).map (repRawAt S (max 1 (min w S.length)) o)

/-- repetitionScore (sections.js lines 114-166): the raw series min-max
normalized to [0,1]; for an empty matrix the returned series is empty. -/
def repetitionScore (S : List (List α)) (w : ℕ) (o : RepOpts) : List α :=
  if S.length = 0 then [] else minmaxNormalize (repetitionScoreRaw S w o)

/-- Modelled from the spec: per-frame repetition scoring in which a stripe
contributes only when the WHOLE stripe — both its row range [i, i+W) and its
column range — lies inside the N×N matrix; a stripe that does not fit is
skipped entirely. -/
def claimRepRawAt (S : List (List α)) (W : ℕ) (o : RepOpts) (i : ℕ) : α :=
  let N := S.length
  let fwdL := (lagList o).filter (fun (d : ℕ) => decide (i + W ≤ N ∧ i + d + W ≤ N))
  let bwdL := if o.bidirectional then
      (lagList o).filter (fun (d : ℕ) => decide (d ≤ i ∧ i - d + W ≤ N ∧ i + W ≤ N))
    else []
  let c := fwdL.length + bwdL.length
  if c = 0 then 0
  else ((fwdL.map (stripeFwdMean S W i)).sum + (bwdL.map (stripeBwdMean S W i)).sum) / (c : α)

theorem one_le_of_mem_lagList (o : RepOpts) (d : ℕ) (hd : d ∈ lagList o) : 1 ≤ d := by
  rw [lagList, List.mem_range'] at hd
  obtain ⟨t, _, rfl⟩ := hd
  have : 1 ≤ minLagOf o := le_max_left _ _
  omega

/-- C6 (corrected): in repRawAt, a forward stripe contributes exactly when
i + d + W ≤ N — which, because every lag is ≥ 1, forces the whole stripe
(rows and columns) inside the matrix — but a backward stripe contributes
whenever d ≤ i and i - d + W ≤ N, with NO check on the row range: when
i + W > N the overflowing cells are read as 0 by safeCell and still enter the
stripe mean.  A frame with zero contributing stripes gets raw score 0. -/
theorem repRawAt_stripe_conditions (S : List (List α)) (W : ℕ) (o : RepOpts) (i : ℕ) :
    (∀ d ∈ lagList o, 1 ≤ d ∧ (i + d + W ≤ S.length → i + W ≤ S.length)) ∧
    repRawAt S W o i =
      (let fwdL := (lagList o).filter (fun (d : ℕ) => decide (i + d + W ≤ S.length))
       let bwdL := if o.bidirectional then
           (lagList o).filter (fun (d : ℕ) =>
             decide (d ≤ i ∧ (i : ℤ) - (d : ℤ) + (W : ℤ) ≤ (S.length : ℤ)))
         else []
       let c := fwdL.length + bwdL.length
       if c = 0 then 0
       else ((fwdL.map (stripeFwdMean S W i)).sum + (bwdL.map (stripeBwdMean S W i)).sum)
          / (c : α)) := by
  constructor
  · intro d hd
    have h1 := one_le_of_mem_lagList o d hd
    exact ⟨h1, by omega⟩
  · unfold repRawAt
    simp only []
    rw [foldl_skip_sum_count (lagList o) (fun d => S.length < i + d + W)
      (fun d => stripeFwdMean S W i d) 0 0]
    have hfc : (lagList o).filter (fun (d : ℕ) => decide (¬ S.length < i + d + W))
        = (lagList o).filter (fun (d : ℕ) => decide (i + d + W ≤ S.length)) := by
      refine List.filter_congr ?_
      intro d _
      exact decide_eq_decide.mpr (by omega)
    rw [hfc]
    rcases hbd : o.bidirectional with hfalse | htrue
    · simp
    · simp only [if_pos rfl]
      rw [foldl_skip_sum_count (lagList o)
        (fun d => (i : ℤ) - (d : ℤ) < 0 ∨ (S.length : ℤ) < (i : ℤ) - (d : ℤ) + (W : ℤ))
        (fun d => stripeBwdMean S W i d) _ _]
      have hbc : (lagList o).filter (fun (d : ℕ) =>
            decide (¬ ((i : ℤ) - (d : ℤ) < 0 ∨ (S.length : ℤ) < (i : ℤ) - (d : ℤ) + (W : ℤ))))
          = (lagList o).filter (fun (d : ℕ) =>
            decide (d ≤ i ∧ (i : ℤ) - (d : ℤ) + (W : ℤ) ≤ (S.length : ℤ))) := by
        refine List.filter_congr ?_
        intro d _
        exact decide_eq_decide.mpr (by omega)
      rw [hbc]
      simp

theorem lagList_concrete : lagList ⟨1, 2, 3, 1, true⟩ = [2, 3] := by
  have h2 : jsRound (2 : ℚ) = 2 := by norm_num [jsRound]
  have h3 : jsRound (3 : ℚ) = 3 := by norm_num [jsRound]
  have h1 : jsRound (1 : ℚ) = 1 := by norm_num [jsRound]
  have hmin : minLagOf ⟨1, 2, 3, 1, true⟩ = 2 := by
    simp [minLagOf, h2]
  have hmax : maxLagOf ⟨1, 2, 3, 1, true⟩ = 3 := by
    simp [maxLagOf, hmin, h3]
  have hstep : lagStepOf ⟨1, 2, 3, 1, true⟩ = 1 := by
    simp [lagStepOf, h1]
  rw [lagList, hmin, hmax, hstep]
  rfl

/-- Closed instance of the C6 stripe-condition theorem at a concrete lag list,
discharging the lag-membership hypothesis of its first conjunct. -/
theorem repRawAt_stripe_conditions_witness :
    1 ≤ 2 ∧ (0 + 2 + 1 ≤ ([[(1 : ℚ)]]).length → 0 + 1 ≤ ([[(1 : ℚ)]]).length) :=
  (repRawAt_stripe_conditions [[(1 : ℚ)]] 1 ⟨1, 2, 3, 1, true⟩ 0).1 2
    (by rw [lagList_concrete]; norm_num)

/-- C6 counterexample: in the all-ones 4×4 similarity matrix with W = 2,
minLag = 2, maxLag = 3, frame i = 3, every backward stripe sticks out past the
bottom of the matrix (row range {3,4}), yet the code still counts both
backward lags, reading the missing cells as 0: the raw score is 1/2, not the 0
that fully-skipping out-of-bounds stripes (as the claim states) would give. -/
theorem repetition_backward_overflow_counterexample :
    (repetitionScoreRaw [[(1 : ℚ), 1, 1, 1], [1, 1, 1, 1], [1, 1, 1, 1], [1, 1, 1, 1]]
        2 ⟨1, 2, 3, 1, true⟩).getD 3 0 = 1/2 ∧
    claimRepRawAt [[(1 : ℚ), 1, 1, 1], [1, 1, 1, 1], [1, 1, 1, 1], [1, 1, 1, 1]]
        2 ⟨1, 2, 3, 1, true⟩ 3 = 0 ∧
    (1/2 : ℚ) ≠ 0 := by
  refine ⟨?_, ?_, by norm_num⟩
  · rw [repetitionScoreRaw]
    norm_num [List.range_succ]
    rw [repRawAt]
    simp only [lagList_concrete]
    norm_num [List.foldl, stripeBwdMean, safeCell, List.range_succ, List.get?, List.getD,
      Int.toNat]
  · rw [claimRepRawAt]
    simp only [lagList_concrete]
    norm_num [List.filter]

end Repetition

/- ---------------- Window scans (energy.js, sections.js) ---------------- -/

section Scans

variable {α : Type} [LinearOrderedField α]

/-- First-strict-max scan over the indexed values f 0 .. f (n-1): best starts
at -Infinity (⊥), bestIdx at 0, and the best is replaced only on strict
improvement — so ties keep the earliest index.  This is the common shape of
every window scan in the code and of the brute-force reference. -/
def scanBest (f : ℕ → α) (n : ℕ) : WithBot α × ℕ :=
  (List.range n).foldl
    (fun st i => if st.1 < (f i : WithBot α) then ((f i : WithBot α), i) else st) (⊥, 0)

/-- Modelled from the spec: the brute-force reference scan — evaluate every
listed window value in order, keep the earliest index, replace only on strict
improvement. -/
def firstArgmax (vs : List α) : ℕ := (scanBest (fun i => vs.getD i 0) vs.length).2

/-- Modelled from the spec: the list of all valid window sums, one per start
index, computed directly (no sliding state, no prefix sums). -/
def windowSums (xs : List α) (win : ℕ) : List α :=
  (List.range (xs.length + 1 - win)).map (fun i => ((xs.drop i).take win).sum)

/-- Modelled from the spec: all valid window averages, computed directly. -/
def windowAvgs (xs : List α) (win : ℕ) : List α :=
  (List.range (xs.length + 1 - win)).map (fun i => ((xs.drop i).take win).sum / (win : α))

/-- Modelled from the spec: all valid window values of the energy hook scan —
window average plus the entrance bonus nov[i-1] * 0.2 for i > 0 — computed
directly. -/
def hookWindowVals (scores nov : List α) (win : ℕ) : List α :=
  (List.range (scores.length + 1 - win)).map (fun i =>
    ((scores.drop i).take win).sum / (win : α)
      + (if 0 < i then nov.getD (i - 1) 0 * (1/5) else 0))

/-- Sliding-sum loop of bestWindowStartSec (energy.js lines 382-390), state
(curr, bestSum, bestIdx), run over the first n indices. -/
def bwssGo (series : List α) (win n : ℕ) : α × WithBot α × ℕ :=
  (List.range n).foldl (fun st i =>
    let c1 := st.1 + series.getD i 0
    let c2 := if win ≤ i then c1 - series.getD (i - win) 0 else c1
    if win - 1 ≤ i ∧ st.2.1 < (c2 : WithBot α) then (c2, (c2 : WithBot α), i + 1 - win)
    else (c2, st.2.1, st.2.2)) (0, ⊥, 0)

/-- Winning index of bestWindowStartSec (energy.js lines 380-392). -/
def bestWindowStartIdx (series : List α) (win : ℕ) : ℕ :=
  (bwssGo series win series.length).2.2

/-- bestWindowStartSec (energy.js lines 380-392): win = max(1,
Math.round(windowSec / frameSec)), result bestIdx * frameSec. -/
def bestWindowStartSec (series : List ℚ) (frameSec windowSec : ℚ) : ℚ :=
  (bestWindowStartIdx series (max 1 (jsRound (windowSec / frameSec)).toNat) : ℚ) * frameSec

/-- Prefix-sum array ps with ps[0] = 0 and ps[i+1] = ps[i] + xs[i]
(energy.js lines 324-325, sections.js lines 201-202). -/
def psums (xs : List α) : List α := List.scanl (· + ·) 0 xs

/-- State of the findChorusHook window scan (sections.js lines 204-212). -/
structure ChorusScanState (α : Type) where
  best : WithBot α
  bestIdx : ℕ
  scoreMin : WithTop α
  scoreMax : WithBot α

/-- Window scan of findChorusHook (sections.js lines 204-212): window mean via
prefix sums; strict-improvement best; running min / max of all window means. -/
def chorusScan (R : List α) (W : ℕ) : ChorusScanState α :=
  (List.range (R.length + 1 - W)).foldl (fun st i =>
    let score := ((psums R).getD (i + W) 0 - (psums R).getD i 0) / (W : α)
    { best := if st.best < (score : WithBot α) then (score : WithBot α) else st.best
      bestIdx := if st.best < (score : WithBot α) then i else st.bestIdx
      scoreMin := if (score : WithTop α) < st.scoreMin then (score : WithTop α) else st.scoreMin
      scoreMax := if st.scoreMax < (score : WithBot α) then (score : WithBot α) else st.scoreMax })
    ⟨⊥, 0, ⊤, ⊥⟩

/-- Window scan of findBestHook (energy.js lines 327-337): window average via
prefix sums plus the entrance bonus, strict-improvement best. -/
def hookScan (scores nov : List α) (win : ℕ) : WithBot α × ℕ :=
  (List.range (scores.length + 1 - win)).foldl (fun st i =>
    let entrance := if 0 < i then nov.getD (i - 1) 0 * (1/5) else 0
    let avg := ((psums scores).getD (i + win) 0 - (psums scores).getD i 0) / (win : α) + entrance
    if st.1 < (avg : WithBot α) then ((avg : WithBot α), i) else st) (⊥, 0)

theorem scanl_add_getD (xs : List α) : ∀ (a : α) (n : ℕ), n ≤ xs.length →
    (List.scanl (· + ·) a xs).getD n 0 = a + (xs.take n).sum := by
  induction xs with
  | nil =>
    intro a n hn
    have hn0 : n = 0 := Nat.le_zero.mp hn
    subst hn0
    simp
  | cons x t ih =>
    intro a n hn
    cases n with
    | zero => simp
    | succ n =>
      rw [List.scanl_cons]
      simp only [List.singleton_append, List.getD_cons_succ, List.take_succ_cons, List.sum_cons]
      rw [ih (a + x) n (by simpa using hn)]
      ring

theorem psums_getD (xs : List α) (n : ℕ) (hn : n ≤ xs.length) :
    (psums xs).getD n 0 = (xs.take n).sum := by
  rw [psums, scanl_add_getD xs 0 n hn, zero_add]

theorem dropTake_sum (xs : List α) (i w : ℕ) :
    ((xs.drop i).take w).sum = (xs.take (i + w)).sum - (xs.take i).sum := by
  rw [List.take_add, List.sum_append]
  ring

theorem take_sum_succ (xs : List α) (n : ℕ) (hn : n < xs.length) :
    (xs.take (n + 1)).sum = (xs.take n).sum + xs.getD n 0 := by
  rw [List.take_succ, List.sum_append, List.getD_eq_getElem _ _ hn, List.getElem?_eq_getElem hn]
  simp

theorem scanBest_succ (f : ℕ → α) (n : ℕ) :
    scanBest f (n + 1) =
      (let st := scanBest f n
       if st.1 < (f n : WithBot α) then ((f n : WithBot α), n) else st) := by
  unfold scanBest
  rw [List.range_succ, List.foldl_append]
  simp

theorem scanBest_congr (f g : ℕ → α) (n : ℕ) (h : ∀ i < n, f i = g i) :
    scanBest f n = scanBest g n := by
  induction n with
  | zero => rfl
  | succ n ih =>
    rw [scanBest_succ, scanBest_succ, ih (fun i hi => h i (by omega)), h n (by omega)]

theorem getD_map_range {β : Type} (F : ℕ → β) (m i : ℕ) (h : i < m) (d : β) :
    ((List.range m).map F).getD i d = F i := by
  rw [getD_map_of_lt F (List.range m) i (by simpa using h) d 0]
  congr 1
  rw [List.getD_eq_getElem _ _ (by simpa using h), List.getElem_range]

theorem bwssGo_spec (series : List α) (win : ℕ) (hwin : 1 ≤ win) :
    ∀ n, n ≤ series.length →
    bwssGo series win n =
      ((series.take n).sum - (series.take (n - win)).sum,
       scanBest (fun i => ((series.drop i).take win).sum) (n + 1 - win)) := by
  intro n
  induction n with
  | zero =>
    intro _
    have h0 : 1 - win = 0 := by omega
    rw [h0]
    simp [bwssGo, scanBest]
  | succ n ih =>
    intro hn1
    have hlt : n < series.length := hn1
    have hstep : bwssGo series win (n + 1) =
        (fun (st : α × WithBot α × ℕ) (i : ℕ) =>
          let c1 := st.1 + series.getD i 0
          let c2 := if win ≤ i then c1 - series.getD (i - win) 0 else c1
          if win - 1 ≤ i ∧ st.2.1 < (c2 : WithBot α) then (c2, (c2 : WithBot α), i + 1 - win)
          else (c2, st.2.1, st.2.2)) (bwssGo series win n) n := by
      unfold bwssGo
      rw [List.range_succ, List.foldl_append, List.foldl_cons, List.foldl_nil]
    rw [hstep, ih (by omega)]
    simp only []
    have hc2 : (if win ≤ n then
          (series.take n).sum - (series.take (n - win)).sum + series.getD n 0
            - series.getD (n - win) 0
        else (series.take n).sum - (series.take (n - win)).sum + series.getD n 0)
        = (series.take (n + 1)).sum - (series.take (n + 1 - win)).sum := by
      by_cases hw : win ≤ n
      · rw [if_pos hw]
        have h1 : n + 1 - win = (n - win) + 1 := by omega
        rw [h1, take_sum_succ series (n - win) (by omega), take_sum_succ series n hlt]
        ring
      · rw [if_neg hw]
        have h1 : n - win = 0 := by omega
        have h2 : n + 1 - win = 0 := by omega
        rw [h1, h2, take_sum_succ series n hlt]
        simp
    rw [hc2]
    by_cases hcond : win - 1 ≤ n
    · simp only [hcond, true_and]
      have hsuc : n + 1 + 1 - win = (n + 1 - win) + 1 := by omega
      rw [hsuc, scanBest_succ]
      have hfm : ((series.drop (n + 1 - win)).take win).sum
          = (series.take (n + 1)).sum - (series.take (n + 1 - win)).sum := by
        rw [dropTake_sum]
        have hadd : n + 1 - win + win = n + 1 := by omega
        rw [hadd]
      simp only [hfm]
      by_cases hB : (scanBest (fun i => ((series.drop i).take win).sum) (n + 1 - win)).1
          < (((series.take (n + 1)).sum - (series.take (n + 1 - win)).sum : α) : WithBot α)
      · simp [hB]
      · simp [hB]
    · simp only [hcond, false_and, if_false]
      have h0 : n + 1 - win = 0 := by omega
      have h0' : n + 1 + 1 - win = 0 := by omega
      rw [h0, h0']

theorem ite_pair {σ τ : Type} (c : Prop) [Decidable c] (a a' : σ) (b b' : τ) :
    (if c then (a, b) else (a', b')) = (if c then a else a', if c then b else b') := by
  by_cases h : c <;> simp [h]

theorem foldl_proj {σ τ ι : Type} (g : σ → τ) (step : σ → ι → σ) (stepT : τ → ι → τ)
    (hcomm : ∀ s i, g (step s i) = stepT (g s) i) (l : List ι) (init : σ) :
    g (l.foldl step init) = l.foldl stepT (g init) := by
  induction l generalizing init with
  | nil => rfl
  | cons x xs ih => rw [List.foldl_cons, List.foldl_cons, ih, hcomm]

theorem chorusScan_best_idx (R : List α) (W : ℕ) :
    ((chorusScan R W).best, (chorusScan R W).bestIdx)
      = scanBest (fun i => ((psums R).getD (i + W) 0 - (psums R).getD i 0) / (W : α))
          (R.length + 1 - W) := by
  unfold chorusScan scanBest
  refine foldl_proj (fun (st : ChorusScanState α) => (st.best, st.bestIdx)) _ _ ?_ _ _
  intro st i
  simp only []
  rw [ite_pair]

/-- C7 (confirmed): each of the three window maximizations — the sliding-sum
bestWindowStartSec, the prefix-sum scan of findChorusHook, and the prefix-sum
scan (with entrance bonus) of findBestHook — returns the same winning start
index as the brute-force reference that evaluates every valid window value
directly, in order, keeping the earliest index and replacing the best only on
strict improvement. -/
theorem window_scans_match_bruteforce :
    (∀ (series : List α) (win : ℕ), 1 ≤ win →
      bestWindowStartIdx series win = firstArgmax (windowSums series win)) ∧
    (∀ (R : List α) (W : ℕ), 1 ≤ W →
      (chorusScan R W).bestIdx = firstArgmax (windowAvgs R W)) ∧
    (∀ (scores nov : List α) (win : ℕ), 1 ≤ win →
      (hookScan scores nov win).2 = firstArgmax (hookWindowVals scores nov win)) := by
  refine ⟨?_, ?_, ?_⟩
  · intro series win hwin
    unfold bestWindowStartIdx firstArgmax
    rw [bwssGo_spec series win hwin series.length le_rfl]
    have hlen : (windowSums series win).length = series.length + 1 - win := by
      simp [windowSums]
    rw [hlen]
    have hcg : scanBest (fun i => ((series.drop i).take win).sum) (series.length + 1 - win)
        = scanBest (fun i => (windowSums series win).getD i 0) (series.length + 1 - win) := by
      refine scanBest_congr _ _ _ ?_
      intro i hi
      rw [windowSums, getD_map_range _ _ _ hi]
    rw [hcg]
  · intro R W hW
    have hproj := chorusScan_best_idx R W
    have hidx : (chorusScan R W).bestIdx
        = (scanBest (fun i => ((psums R).getD (i + W) 0 - (psums R).getD i 0) / (W : α))
            (R.length + 1 - W)).2 := by
      rw [← hproj]
    rw [hidx]
    unfold firstArgmax
    have hlen : (windowAvgs R W).length = R.length + 1 - W := by
      simp [windowAvgs]
    rw [hlen]
    refine congrArg Prod.snd (scanBest_congr _ _ _ ?_)
    intro i hi
    rw [windowAvgs, getD_map_range _ _ _ hi]
    rw [psums_getD R (i + W) (by omega), psums_getD R i (by omega), dropTake_sum]
  · intro scores nov win hwin
    unfold hookScan firstArgmax
    have hlen : (hookWindowVals scores nov win).length = scores.length + 1 - win := by
      simp [hookWindowVals]
    rw [hlen]
    have hsb : (List.range (scores.length + 1 - win)).foldl (fun (st : WithBot α × ℕ) i =>
        let entrance := if 0 < i then nov.getD (i - 1) 0 * (1/5) else 0
        let avg := ((psums scores).getD (i + win) 0 - (psums scores).getD i 0) / (win : α)
          + entrance
        if st.1 < (avg : WithBot α) then ((avg : WithBot α), i) else st) (⊥, 0)
        = scanBest (fun i => ((psums scores).getD (i + win) 0 - (psums scores).getD i 0)
            / (win : α) + (if 0 < i then nov.getD (i - 1) 0 * (1/5) else 0))
            (scores.length + 1 - win) := rfl
    rw [hsb]
    refine congrArg Prod.snd (scanBest_congr _ _ _ ?_)
    intro i hi
    rw [hookWindowVals, getD_map_range _ _ _ hi]
    rw [psums_getD scores (i + win) (by omega), psums_getD scores i (by omega), dropTake_sum]

end Scans

/-- Closed instance of the C7 equivalence at concrete inputs, discharging the
1 ≤ win hypotheses. -/
theorem window_scans_match_bruteforce_witness :
    bestWindowStartIdx ([3, 1, 2] : List ℚ) 2 = firstArgmax (windowSums ([3, 1, 2] : List ℚ) 2) ∧
    (chorusScan ([3, 1, 2] : List ℚ) 2).bestIdx = firstArgmax (windowAvgs ([3, 1, 2] : List ℚ) 2) ∧
    (hookScan ([3, 1, 2] : List ℚ) ([0, 0, 0] : List ℚ) 2).2
      = firstArgmax (hookWindowVals ([3, 1, 2] : List ℚ) ([0, 0, 0] : List ℚ) 2) :=
  ⟨window_scans_match_bruteforce.1 [3, 1, 2] 2 (by norm_num),
   window_scans_match_bruteforce.2.1 [3, 1, 2] 2 (by norm_num),
   window_scans_match_bruteforce.2.2 [3, 1, 2] [0, 0, 0] 2 (by norm_num)⟩

/- ---------------- Spectral pipeline over ℝ ---------------- -/

/-- Hann window coefficient 0.5 * (1 - cos(2πi/(N-1))) (energy.js lines 14-20,
sections.js lines 9-13). -/
noncomputable def hannW (N j : ℕ) : ℝ :=
  0.5 * (1 - Real.cos (2 * Real.pi * (j : ℝ) / ((N : ℝ) - 1)))

/-- Real part of DFT bin k of the length-N real input x; fft.js transform
computes exactly the DFT of the complex buffer (imag parts are 0). -/
noncomputable def dftRe (x : List ℝ) (N k : ℕ) : ℝ :=
  ((List.range N).map (fun j => x.getD j 0 * Real.cos (2 * Real.pi * (j : ℝ) * (k : ℝ) / (N : ℝ)))).sum

/-- Imaginary part of DFT bin k of the length-N real input x. -/
noncomputable def dftIm (x : List ℝ) (N k : ℕ) : ℝ :=
  -((List.range N).map (fun j => x.getD j 0 * Real.sin (2 * Real.pi * (j : ℝ) * (k : ℝ) / (N : ℝ)))).sum

/-- computeFFT (energy.js lines 23-47): magnitudes Math.hypot(re, im) =
sqrt(re² + im²) of the bins [0, N/2); for N < 2 a two-zero array. -/
noncomputable def computeFFT (x : List ℝ) : List ℝ :=
  if x.length < 2 then [0, 0]
  else (List.range (x.length / 2)).map (fun k =>
    Real.sqrt (dftRe x x.length k ^ 2 + dftIm x x.length k ^ 2))

/-- Frame extraction frame[j] = samples[start + j] ?? 0 (energy.js lines
90-92). -/
def frameAt (samples : List ℝ) (start N : ℕ) : List ℝ :=
  (List.range N).map (fun j => samples.getD (start + j) 0)

/-- applyHannWindow (energy.js lines 14-20, applied at lines 126-129);
likewise the inline windowing buf[2j] = s * W[j] of stftMag (sections.js
lines 58-62). -/
noncomputable def applyHann (buf : List ℝ) : List ℝ :=
  (List.range buf.length).map (fun j => buf.getD j 0 * hannW buf.length j)

/-- Per-frame RMS energy on the unwindowed frame (energy.js lines 94-99). -/
noncomputable def energyAt (samples : List ℝ) (frameSize hop i : ℕ) : ℝ :=
  Real.sqrt ((((frameAt samples (i * hop) frameSize).map (fun s => s * s)).sum) / (frameSize : ℝ))

/-- Dead-zone sign (x > eps ? 1 : x < -eps ? -1 : 0) (energy.js line 110). -/
noncomputable def sgnDead (eps x : ℝ) : ℤ :=
  if eps < x then 1 else if x < -eps then -1 else 0

/-- Per-frame zero-crossing rate with DC removal (energy.js lines 101-122).
The fold state is (prev, crossings); a crossing is counted from the OLD prev,
and prev is replaced by curr whenever curr is nonzero. -/
noncomputable def zcrAt (samples : List ℝ) (frameSize hop i : ℕ) : ℝ :=
  let frame := frameAt samples (i * hop) frameSize
  let mean := frame.sum / (frameSize : ℝ)
  let cnt := ((List.range' 1 (frameSize - 1)).foldl (fun (p : ℤ × ℕ) (j : ℕ) =>
      let curr := sgnDead (1/10000) (frame.getD j 0 - mean)
      (if curr ≠ 0 then curr else p.1,
       if p.1 ≠ 0 ∧ curr ≠ 0 ∧ p.1 ≠ curr then p.2 + 1 else p.2))
      (sgnDead (1/10000) (frame.getD 0 0 - mean), 0)).2
  (cnt : ℝ) / ((frameSize : ℝ) - 1)

/-- Windowed magnitude spectrum of frame i (energy.js lines 124-132). -/
noncomputable def magsAt (samples : List ℝ) (frameSize hop i : ℕ) : List ℝ :=
  computeFFT (applyHann (frameAt samples (i * hop) frameSize))

/-- Per-frame spectral centroid (energy.js lines 134-143). -/
noncomputable def centroidAt (samples : List ℝ) (sampleRate frameSize hop i : ℕ) : ℝ :=
  let mags := magsAt samples frameSize hop i
  let binHz : ℝ := (sampleRate : ℝ) / (frameSize : ℝ)
  let ws := ((List.range mags.length).map (fun (k : ℕ) => (k : ℝ) * binHz * mags.getD k 0)).sum
  let ms := mags.sum
  if 0 < ms then ws / ms else 0

/-- Per-frame spectral flux: half-wave rectified difference to the previous
frame, 0 for the first frame (energy.js lines 145-156).  Recomputing the
previous magnitudes equals the imperative prevMags caching. -/
noncomputable def fluxAt (samples : List ℝ) (frameSize hop i : ℕ) : ℝ :=
  if i = 0 then 0
  else
    ((List.range (magsAt samples frameSize hop i).length).map (fun k =>
      let diff := (magsAt samples frameSize hop i).getD k 0
        - (magsAt samples frameSize hop (i - 1)).getD k 0
      if 0 < diff then diff else 0)).sum

/-- The five per-frame feature series. -/
structure Features where
  energy : List ℝ
  centroid : List ℝ
  zcr : List ℝ
  spectralFlux : List ℝ
  novelty : List ℝ

/-- Result of extractAllFeatures (energy.js lines 166-173). -/
structure ExtractResult where
  features : Features
  frameSec : ℚ
  frameSize : ℕ
  hop : ℕ
  nFrames : ℕ

/-- extractAllFeatures (energy.js lines 61-174): single-pass extraction of
energy, centroid, zcr and spectral flux, plus the derived novelty series; the
returned frameSec is hop / sampleRate. -/
noncomputable def extractAllFeatures (samples : List ℝ) (sampleRate : ℕ) (frameSec : ℚ) :
    ExtractResult :=
  let frameSize := frameSizeE sampleRate frameSec
  let hop := hopE sampleRate frameSec
  let nFrames := nFramesOf samples.length frameSize hop
  let energy := (List.range nFrames).map (fun i => energyAt samples frameSize hop i)
  ⟨⟨energy,
    (List.range nFrames).map (fun i => centroidAt samples sampleRate frameSize hop i),
    (List.range nFrames).map (fun i => zcrAt samples frameSize hop i),
    (List.range nFrames).map (fun i => fluxAt samples frameSize hop i),
    computeNovelty energy⟩,
   (hop : ℚ) / (sampleRate : ℚ), frameSize, hop, nFrames⟩

/-- Result of the legacy rmsSeries (energy.js lines 205-223); its frameSec is
frame / sampleRate (the full frame length, not the hop). -/
structure RmsResult where
  series : List ℝ
  frameSec : ℚ

/-- rmsSeries (energy.js lines 205-223): the legacy energy extractor with its
own (identical) frame geometry; s = samples[off + j] || 0. -/
noncomputable def rmsSeries (samples : List ℝ) (sampleRate : ℕ) (frameSec : ℚ) : RmsResult :=
  let frame := nextPow2 (max 2 (jsFloor ((sampleRate : ℚ) * frameSec)).toNat)
  let hop := frame / 2
  let n := nFramesOf samples.length frame hop
  ⟨(List.range n).map (fun i =>
      Real.sqrt ((((List.range frame).map (fun j =>
        samples.getD (i * hop + j) 0 * samples.getD (i * hop + j) 0)).sum) / (frame : ℝ))),
   (frame : ℚ) / (sampleRate : ℚ)⟩

/-- Result of stftMag (sections.js line 73). -/
structure StftResult where
  mags : List (List ℝ)
  frameSec : ℚ

/-- stftMag (sections.js lines 44-74): Hann-windowed DFT magnitude spectra,
bins [0, N/2) per frame; the returned frameSec is N / sampleRate — the frame
LENGTH in seconds, not the hop. -/
noncomputable def stftMag (samples : List ℝ) (sampleRate : ℕ) (frameSec hopRatio : ℚ) :
    StftResult :=
  let N := frameSizeS sampleRate frameSec
  let H := hopS sampleRate frameSec hopRatio
  let frames := nFramesOf samples.length N H
  ⟨(List.range frames).map (fun i =>
      (List.range (N / 2)).map (fun k =>
        Real.sqrt (dftRe (applyHann (frameAt samples (i * H) N)) N k ^ 2
          + dftIm (applyHann (frameAt samples (i * H) N)) N k ^ 2))),
   (N : ℚ) / (sampleRate : ℚ)⟩

/-- chromaFromMag (sections.js lines 76-92): accumulate midband magnitudes
into 12 pitch classes and L2-normalize with the ||1 guard.  The JS pitch-class
arithmetic ((round % 12) + 12) % 12 equals the mathematical mod used here. -/
noncomputable def chromaFromMag (mag : List ℝ) (sampleRate : ℕ) : List ℝ :=
  let n := mag.length
  let ch := (List.range' 1 (n - 1)).foldl (fun (ch : List ℝ) (k : ℕ) =>
      let freq := (k : ℝ) * (sampleRate : ℝ) / (2 * (n : ℝ))
      if freq < 80 ∨ 5000 < freq then ch
      else
        let cls := ((⌊(69 : ℝ) + 12 * Real.logb 2 (freq / 440) + 1/2⌋ % 12) + 12) % 12
        ch.set cls.toNat (ch.getD cls.toNat 0 + mag.getD k 0))
    (List.replicate 12 0)
  let s := (ch.map (fun v => v * v)).sum
  let norm := if Real.sqrt s = 0 then 1 else Real.sqrt s
  ch.map (fun v => v / norm)

/-- chromaSeries (sections.js lines 94-99). -/
noncomputable def chromaSeries (samples : List ℝ) (sampleRate : ℕ) (frameSec hopRatio : ℚ) :
    List (List ℝ) × ℚ :=
  let r := stftMag samples sampleRate frameSec hopRatio
  (r.mags.map (fun m => chromaFromMag m sampleRate), r.frameSec)

/-- Hook candidate returned by findChorusHook (sections.js lines 169-234). -/
structure ChorusHook where
  startSec : ℝ
  score : ℝ
  scoreMin : WithTop ℝ
  scoreMax : WithBot ℝ
  frameSec : ℚ
  repetition : List ℝ

/-- findChorusHook (sections.js lines 169-234).  The two safe-default branches
are the N = 0 early return and the !isFinite(best) guard (best = ⊥ exactly
when the JS best stayed -Infinity). -/
noncomputable def findChorusHook (samples : List ℝ) (sampleRate : ℕ) (windowSec : ℚ) :
    ChorusHook :=
  let cs := chromaSeries samples sampleRate (29/625) (1/2)
  let C := cs.1
  let step := cs.2
  if C.length = 0 then ⟨0, 0, 0, 1, 29/625, []⟩
  else
    let w := max 8 (jsFloor (windowSec / step)).toNat
    let S := selfSimilarity C
    let Rraw := repetitionScore S w ⟨step, 6, min 60 (max 30 (3 * windowSec)), 1/4, true⟩
    let R := smooth1D Rraw 5
    let W := max 1 (min w R.length)
    let st := chorusScan R W
    if st.best = ⊥ then ⟨0, 0, 0, 1, step, R⟩
    else ⟨(st.bestIdx : ℝ) * ((step : ℚ) : ℝ), st.best.unbot' 0, st.scoreMin, st.scoreMax,
          step, R⟩

/-- A genre weight profile (energy.js lines 254-260, 352-359). -/
structure Weights where
  energy : ℝ
  centroid : ℝ
  zcr : ℝ
  novelty : ℝ

/-- Default weights of findBestHook (energy.js line 258). -/
noncomputable def defaultWeights : Weights := ⟨2/5, 1/5, 3/20, 1/4⟩

/-- The four feature series and frame step selected by findBestHook before
scoring (energy.js lines 261-277). -/
structure FeatSel where
  e : List ℝ
  c : List ℝ
  z : List ℝ
  n : List ℝ
  step : ℚ

/-- Hook candidate returned by findBestHook (energy.js lines 339-349); the
score keeps its WithBot type because the JS best stays -Infinity when no
window fits. -/
structure EnergyHook where
  startSec : ℝ
  score : WithBot ℝ
  featE : List ℝ
  featC : List ℝ
  featZ : List ℝ
  featN : List ℝ
  frameSec : ℚ

/-- findBestHook (energy.js lines 254-350): unified or legacy feature
selection, truncation to the common length, per-feature min-max
normalization, weighted per-frame scores, and the prefix-sum window scan with
entrance bonus. -/
noncomputable def findBestHook (samples : List ℝ) (sampleRate : ℕ) (windowSec : ℚ)
    (weights : Weights) (useUnified : Bool) : EnergyHook :=
  let fr : FeatSel :=
    if useUnified then
      let r := extractAllFeatures samples sampleRate (1/10)
      ⟨r.features.energy, r.features.centroid, r.features.zcr, r.features.novelty, r.frameSec⟩
    else
      let rms := rmsSeries samples sampleRate (1/10)
      ⟨rms.series,
       (extractAllFeatures samples sampleRate (1/10)).features.centroid,
       (extractAllFeatures samples sampleRate (29/625)).features.zcr,
       computeNovelty rms.series, rms.frameSec⟩
  let L := min (min (min fr.e.length fr.c.length) fr.z.length) fr.n.length
  let E := minmaxNormalize (fr.e.take L)
  let Cn := minmaxNormalize (fr.c.take L)
  let Z := minmaxNormalize (fr.z.take L)
  let Nn := minmaxNormalize (fr.n.take L)
  let scores := (List.range L).map (fun i =>
    weights.energy * E.getD i 0 + weights.centroid * Cn.getD i 0
      + weights.zcr * Z.getD i 0 + weights.novelty * Nn.getD i 0)
  let win := max 1 (jsFloor (windowSec / fr.step)).toNat
  let st := hookScan scores Nn win
  ⟨(st.2 : ℝ) * ((fr.step : ℚ) : ℝ), st.1,
   (E.drop st.2).take win, (Cn.drop st.2).take win, (Z.drop st.2).take win,
   (Nn.drop st.2).take win, fr.step⟩

/-- C10 (confirmed): the legacy rmsSeries and the energy series of the
unified extractAllFeatures agree exactly — same frame length, hop,
zero-padding and per-frame RMS formula — at every frame index, for every
input and every frame duration. -/
theorem rmsSeries_eq_unified_energy (samples : List ℝ) (sampleRate : ℕ) (frameSec : ℚ) :
    (rmsSeries samples sampleRate frameSec).series
      = (extractAllFeatures samples sampleRate frameSec).features.energy ∧
    (rmsSeries samples sampleRate frameSec).series.length
      = (extractAllFeatures samples sampleRate frameSec).nFrames := by
  have hmain : (rmsSeries samples sampleRate frameSec).series
      = (extractAllFeatures samples sampleRate frameSec).features.energy := by
    unfold rmsSeries extractAllFeatures frameSizeE hopE targetSizeE
    simp only []
    refine List.map_congr_left ?_
    intro i _
    unfold energyAt frameAt
    rw [List.map_map]
    rfl
  refine ⟨hmain, ?_⟩
  rw [hmain]
  simp [extractAllFeatures]

/-- C3 (code_bug in the code): stftMag returns frameSec = N / sampleRate —
the frame LENGTH in seconds — while the unified extractor returns
hop / sampleRate.  At hop ratio 0.5 the hop is N/2, so the value stftMag
reports (and findChorusHook multiplies bestIdx by) is TWICE the effective
frame step: concretely at sampleRate 100 it returns 0.04 where the true step
is 0.02. -/
theorem stft_frameSec_is_frame_length :
    (∀ (samples : List ℝ) (sampleRate : ℕ) (frameSec hopRatio : ℚ),
      (stftMag samples sampleRate frameSec hopRatio).frameSec
        = ((frameSizeS sampleRate frameSec : ℕ) : ℚ) / (sampleRate : ℚ)) ∧
    (∀ (samples : List ℝ) (sampleRate : ℕ) (frameSec : ℚ),
      (extractAllFeatures samples sampleRate frameSec).frameSec
        = ((hopE sampleRate frameSec : ℕ) : ℚ) / (sampleRate : ℚ)) ∧
    (stftMag [] 100 (29/625) (1/2)).frameSec = 1/25 ∧
    ((hopS 100 (29/625) (1/2) : ℕ) : ℚ) / 100 = 1/50 ∧
    (1/25 : ℚ) ≠ (1/50 : ℚ) := by
  have hfsS : frameSizeS 100 (29/625) = 4 := by
    have ht : targetSizeS 100 (29/625) = 4 := by
      norm_num [targetSizeS, jsFloor]
      rfl
    rw [frameSizeS, ht]
    rfl
  refine ⟨fun _ _ _ _ => rfl, fun _ _ _ => rfl, ?_, ?_, by norm_num⟩
  · rw [show (stftMag [] 100 (29/625) (1/2)).frameSec
        = ((frameSizeS 100 (29/625) : ℕ) : ℚ) / (100 : ℚ) from rfl, hfsS]
    norm_num
  · have hh : hopS 100 (29/625) (1/2) = 2 := by
      rw [hopS, hfsS]
      norm_num [jsFloor]
      rfl
    rw [hh]
    norm_num

/- ---------------- Degenerate inputs (C2) ---------------- -/

theorem computeNovelty_length {α : Type} [LinearOrderedField α] (s : List α) :
    (computeNovelty s).length = s.length := by
  simp [computeNovelty]

theorem hookScan_no_window {α : Type} [LinearOrderedField α] (scores nov : List α) (win : ℕ)
    (h : scores.length < win) : hookScan scores nov win = (⊥, 0) := by
  unfold hookScan
  rw [show scores.length + 1 - win = 0 from by omega]
  rfl

theorem extract_lengths (samples : List ℝ) (sampleRate : ℕ) (frameSec : ℚ) :
    (extractAllFeatures samples sampleRate frameSec).features.energy.length
      = (extractAllFeatures samples sampleRate frameSec).nFrames ∧
    (extractAllFeatures samples sampleRate frameSec).features.centroid.length
      = (extractAllFeatures samples sampleRate frameSec).nFrames ∧
    (extractAllFeatures samples sampleRate frameSec).features.zcr.length
      = (extractAllFeatures samples sampleRate frameSec).nFrames ∧
    (extractAllFeatures samples sampleRate frameSec).features.spectralFlux.length
      = (extractAllFeatures samples sampleRate frameSec).nFrames ∧
    (extractAllFeatures samples sampleRate frameSec).features.novelty.length
      = (extractAllFeatures samples sampleRate frameSec).nFrames := by
  refine ⟨by simp [extractAllFeatures], by simp [extractAllFeatures],
    by simp [extractAllFeatures], by simp [extractAllFeatures], ?_⟩
  simp [extractAllFeatures, computeNovelty_length]

theorem findBestHook_no_window (samples : List ℝ) (sampleRate : ℕ) (windowSec : ℚ)
    (weights : Weights)
    (hwin : (extractAllFeatures samples sampleRate (1/10)).nFrames
        < max 1 (jsFloor (windowSec
            / (extractAllFeatures samples sampleRate (1/10)).frameSec)).toNat) :
    (findBestHook samples sampleRate windowSec weights true).score = ⊥ ∧
    (findBestHook samples sampleRate windowSec weights true).startSec = 0 := by
  obtain ⟨he, hc, hz, _, hn⟩ := extract_lengths samples sampleRate (1/10)
  unfold findBestHook
  simp only [if_pos]
  have hL : min (min (min (extractAllFeatures samples sampleRate (1/10)).features.energy.length
        (extractAllFeatures samples sampleRate (1/10)).features.centroid.length)
        (extractAllFeatures samples sampleRate (1/10)).features.zcr.length)
        (extractAllFeatures samples sampleRate (1/10)).features.novelty.length
      = (extractAllFeatures samples sampleRate (1/10)).nFrames := by
    rw [he, hc, hz, hn]
    simp
  rw [hL]
  rw [hookScan_no_window _ _ _ (by
    simpa using hwin)]
  simp

theorem foldl_skip_all {β γ : Type} (l : List γ) (f : β → γ → β)
    (h : ∀ x ∈ l, ∀ b, f b x = b) : ∀ init, l.foldl f init = init := by
  induction l with
  | nil => intro init; rfl
  | cons x xs ih =>
    intro init
    rw [List.foldl_cons, h x (List.mem_cons_self x xs) init]
    exact ih (fun y hy b => h y (List.mem_cons_of_mem x hy) b) init

theorem repRawAt_single_frame {α : Type} [LinearOrderedField α] (S : List (List α))
    (o : RepOpts) (hS : S.length = 1) : repRawAt S 1 o 0 = 0 := by
  unfold repRawAt
  simp only []
  rw [foldl_skip_all (lagList o) _ (fun d hd b => by
    have h1 := one_le_of_mem_lagList o d hd
    rw [if_pos (by omega)])]
  rw [ite_self]
  rw [foldl_skip_all (lagList o) _ (fun d hd b => by
    have h1 := one_le_of_mem_lagList o d hd
    rw [if_pos (by omega)])]
  norm_num

theorem findChorusHook_empty :
    (findChorusHook [] 8 17).score = 0 ∧ (findChorusHook [] 8 17).startSec = 0 := by
  have hfs8 : frameSizeS 8 (29/625) = 2 := by
    have ht : targetSizeS 8 (29/625) = 2 := by
      norm_num [targetSizeS, jsFloor]
    rw [frameSizeS, ht]
    rfl
  have hh8 : hopS 8 (29/625) (1/2) = 1 := by
    rw [hopS, hfs8]
    norm_num [jsFloor]
  have hnf : nFramesOf (List.length ([] : List ℝ)) 2 1 = 1 := by decide
  have hstep : (chromaSeries ([] : List ℝ) 8 (29/625) (1/2)).2 = 1/4 := by
    show (stftMag ([] : List ℝ) 8 (29/625) (1/2)).frameSec = 1/4
    rw [show (stftMag ([] : List ℝ) 8 (29/625) (1/2)).frameSec
        = ((frameSizeS 8 (29/625) : ℕ) : ℚ) / (8 : ℚ) from rfl, hfs8]
    norm_num
  have hClen : (chromaSeries ([] : List ℝ) 8 (29/625) (1/2)).1.length = 1 := by
    show ((stftMag ([] : List ℝ) 8 (29/625) (1/2)).mags.map
      (fun m => chromaFromMag m 8)).length = 1
    rw [List.length_map]
    show ((List.range (nFramesOf (List.length ([] : List ℝ)) (frameSizeS 8 (29/625))
      (hopS 8 (29/625) (1/2)))).map _).length = 1
    rw [hfs8, hh8, List.length_map, List.length_range, hnf]
  have hSlen : (selfSimilarity (chromaSeries ([] : List ℝ) 8 (29/625) (1/2)).1).length = 1 := by
    rw [selfSimilarity, List.length_map, hClen]
  have hw : max 8 (jsFloor ((17 : ℚ) / (1/4))).toNat = 68 := by
    norm_num [jsFloor]
    rfl
  have hRraw : repetitionScoreRaw (selfSimilarity (chromaSeries ([] : List ℝ) 8 (29/625) (1/2)).1)
      68 ⟨1/4, 6, min 60 (max 30 (3 * 17)), 1/4, true⟩ = [0] := by
    unfold repetitionScoreRaw
    rw [hSlen]
    have hW : max 1 (min 68 1) = 1 := by norm_num
    rw [hW, show List.range 1 = [0] from rfl]
    simp only [List.map_cons, List.map_nil]
    rw [repRawAt_single_frame _ _ hSlen]
  have hRS : repetitionScore (selfSimilarity (chromaSeries ([] : List ℝ) 8 (29/625) (1/2)).1)
      68 ⟨1/4, 6, min 60 (max 30 (3 * 17)), 1/4, true⟩ = [0] := by
    rw [repetitionScore, if_neg (by rw [hSlen]; norm_num), hRraw]
    norm_num [minmaxNormalize, listMin, listMax]
  have hsm : smooth1D ([0] : List ℝ) 5 = [0] := by
    rw [smooth1D, if_neg (by norm_num)]
    norm_num [List.range_succ, List.foldl, List.getD, Int.toNat]
  have hscan : chorusScan ([0] : List ℝ) (max 1 (min 68 1))
      = ⟨((0 : ℝ) : WithBot ℝ), 0, ((0 : ℝ) : WithTop ℝ), ((0 : ℝ) : WithBot ℝ)⟩ := by
    rw [show max 1 (min 68 1) = 1 from by norm_num]
    unfold chorusScan psums
    norm_num [List.range_succ, List.foldl, List.getD, List.scanl]
  unfold findChorusHook
  simp only []
  rw [if_neg (by rw [hClen]; norm_num), hstep, hw, hRS, hsm]
  simp only [List.length_singleton]
  rw [hscan]
  constructor
  · rw [if_neg (by simp)]
    simp
  · rw [if_neg (by simp)]
    simp

/-- C2 (the code violates the claim): on the empty sample buffer — a track
shorter than one scoring window — findBestHook never enters its window scan,
so its JS best stays -Infinity (here ⊥) and the returned score is -Infinity,
not the required 0 (the start time is 0); findChorusHook does return the safe
default start 0, score 0 on the same input. -/
theorem degenerate_empty_buffer_scores :
    (findBestHook [] 8 17 defaultWeights true).score = ⊥ ∧
    (findBestHook [] 8 17 defaultWeights true).startSec = 0 ∧
    (findChorusHook [] 8 17).score = 0 ∧
    (findChorusHook [] 8 17).startSec = 0 := by
  have hfsE : frameSizeE 8 (1/10) = 2 := by
    have ht : targetSizeE 8 (1/10) = 2 := by
      norm_num [targetSizeE, jsFloor]
    rw [frameSizeE, ht]
    rfl
  have hhopE : hopE 8 (1/10) = 1 := by
    rw [hopE, hfsE]
  have hnF : (extractAllFeatures ([] : List ℝ) 8 (1/10)).nFrames = 1 := by
    show nFramesOf (List.length ([] : List ℝ)) (frameSizeE 8 (1/10)) (hopE 8 (1/10)) = 1
    rw [hfsE, hhopE]
    decide
  have hfsec : (extractAllFeatures ([] : List ℝ) 8 (1/10)).frameSec = 1/8 := by
    show ((hopE 8 (1/10) : ℕ) : ℚ) / ((8 : ℕ) : ℚ) = 1/8
    rw [hhopE]
    norm_num
  have henergy := findBestHook_no_window [] 8 17 defaultWeights (by
    rw [hnF, hfsec]
    have : jsFloor ((17 : ℚ) / (1/8)) = 136 := by
      norm_num [jsFloor]
    rw [this]
    norm_num)
  exact ⟨henergy.1, henergy.2, findChorusHook_empty.1, findChorusHook_empty.2⟩

/- ---------------- Boundedness of the unified extractor (C8) ------------- -/

theorem abs_getD_le_one (l : List ℝ) (h : ∀ s ∈ l, |s| ≤ 1) (i : ℕ) : |l.getD i 0| ≤ 1 := by
  rcases Nat.lt_or_ge i l.length with hlt | hge
  · rw [List.getD_eq_getElem _ _ hlt]
    exact h _ (List.getElem_mem hlt)
  · rw [List.getD_eq_default _ _ hge]
    simp

theorem frameAt_getD_abs_le (samples : List ℝ) (hamp : ∀ s ∈ samples, |s| ≤ 1)
    (start N j : ℕ) : |(frameAt samples start N).getD j 0| ≤ 1 := by
  refine abs_getD_le_one _ ?_ j
  intro s hs
  rw [frameAt] at hs
  obtain ⟨t, _, rfl⟩ := List.mem_map.mp hs
  exact abs_getD_le_one samples hamp _

theorem hannW_bounds (N j : ℕ) : 0 ≤ hannW N j ∧ hannW N j ≤ 1 := by
  unfold hannW
  have h1 := Real.neg_one_le_cos (2 * Real.pi * (j : ℝ) / ((N : ℝ) - 1))
  have h2 := Real.cos_le_one (2 * Real.pi * (j : ℝ) / ((N : ℝ) - 1))
  constructor <;> nlinarith

theorem applyHann_getD_abs_le (buf : List ℝ) (h : ∀ j, |buf.getD j 0| ≤ 1) (j : ℕ) :
    |(applyHann buf).getD j 0| ≤ 1 := by
  refine abs_getD_le_one _ ?_ j
  intro s hs
  rw [applyHann] at hs
  obtain ⟨t, ht, rfl⟩ := List.mem_map.mp hs
  obtain ⟨hw0, hw1⟩ := hannW_bounds buf.length t
  rw [abs_mul, abs_of_nonneg hw0]
  exact mul_le_one₀ (h t) (by positivity) hw1

theorem dftRe_abs_le (x : List ℝ) (N k : ℕ) (h : ∀ j, |x.getD j 0| ≤ 1) :
    |dftRe x N k| ≤ (N : ℝ) := by
  unfold dftRe
  rw [sum_map_range]
  refine le_trans (Finset.abs_sum_le_sum_abs _ _) ?_
  refine le_trans (Finset.sum_le_sum (g := fun _ => (1 : ℝ)) (fun j _ => ?_)) ?_
  · rw [abs_mul]
    exact mul_le_one₀ (h j) (abs_nonneg _) (Real.abs_cos_le_one _)
  · simp

theorem dftIm_abs_le (x : List ℝ) (N k : ℕ) (h : ∀ j, |x.getD j 0| ≤ 1) :
    |dftIm x N k| ≤ (N : ℝ) := by
  unfold dftIm
  rw [abs_neg, sum_map_range]
  refine le_trans (Finset.abs_sum_le_sum_abs _ _) ?_
  refine le_trans (Finset.sum_le_sum (g := fun _ => (1 : ℝ)) (fun j _ => ?_)) ?_
  · rw [abs_mul]
    exact mul_le_one₀ (h j) (abs_nonneg _) (Real.abs_sin_le_one _)
  · simp

theorem computeFFT_mem_bounds (x : List ℝ) (h : ∀ j, |x.getD j 0| ≤ 1) :
    ∀ m ∈ computeFFT x, 0 ≤ m ∧ m ≤ 2 * (x.length : ℝ) := by
  intro m hm
  unfold computeFFT at hm
  by_cases hN : x.length < 2
  · rw [if_pos hN] at hm
    have hm0 : m = 0 := by
      rcases List.mem_cons.mp hm with h0 | h1
      · exact h0
      · simpa using h1
    subst hm0
    exact ⟨le_refl 0, by positivity⟩
  · rw [if_neg hN] at hm
    obtain ⟨k, _, rfl⟩ := List.mem_map.mp hm
    refine ⟨Real.sqrt_nonneg _, ?_⟩
    have hre := dftRe_abs_le x x.length k h
    have him := dftIm_abs_le x x.length k h
    have hsq : dftRe x x.length k ^ 2 + dftIm x x.length k ^ 2 ≤ (2 * (x.length : ℝ)) ^ 2 := by
      have h1 : dftRe x x.length k ^ 2 ≤ (x.length : ℝ) ^ 2 := by
        rw [← sq_abs]
        exact pow_le_pow_left₀ (abs_nonneg _) hre 2
      have h2 : dftIm x x.length k ^ 2 ≤ (x.length : ℝ) ^ 2 := by
        rw [← sq_abs]
        exact pow_le_pow_left₀ (abs_nonneg _) him 2
      nlinarith [Nat.cast_nonneg (α := ℝ) x.length]
    calc Real.sqrt (dftRe x x.length k ^ 2 + dftIm x x.length k ^ 2)
        ≤ Real.sqrt ((2 * (x.length : ℝ)) ^ 2) := Real.sqrt_le_sqrt hsq
      _ = 2 * (x.length : ℝ) := Real.sqrt_sq (by positivity)

theorem getD_nonneg (l : List ℝ) (h : ∀ x ∈ l, 0 ≤ x) (k : ℕ) : 0 ≤ l.getD k 0 := by
  rcases Nat.lt_or_ge k l.length with hlt | hge
  · rw [List.getD_eq_getElem _ _ hlt]
    exact h _ (List.getElem_mem hlt)
  · rw [List.getD_eq_default _ _ hge]

theorem getD_le_of_bound (l : List ℝ) (c : ℝ) (hc : 0 ≤ c) (h : ∀ x ∈ l, x ≤ c) (k : ℕ) :
    l.getD k 0 ≤ c := by
  rcases Nat.lt_or_ge k l.length with hlt | hge
  · rw [List.getD_eq_getElem _ _ hlt]
    exact h _ (List.getElem_mem hlt)
  · rw [List.getD_eq_default _ _ hge]
    exact hc

theorem map_getD_range_self (l : List ℝ) : (List.range l.length).map (fun k => l.getD k 0) = l := by
  refine List.ext_getElem (by simp) ?_
  intro n h1 h2
  rw [List.getElem_map, List.getElem_range, List.getD_eq_getElem _ _ h2]

theorem energyAt_bounds (samples : List ℝ) (hamp : ∀ s ∈ samples, |s| ≤ 1)
    (frameSize hop i : ℕ) (hN : 1 ≤ frameSize) :
    0 ≤ energyAt samples frameSize hop i ∧ energyAt samples frameSize hop i ≤ 1 := by
  unfold energyAt
  refine ⟨Real.sqrt_nonneg _, Real.sqrt_le_one.mpr ?_⟩
  have hbound : ∀ x ∈ (frameAt samples (i * hop) frameSize).map (fun s => s * s), x ≤ 1 := by
    intro x hx
    obtain ⟨s, hs, rfl⟩ := List.mem_map.mp hx
    have : |s| ≤ 1 := by
      rw [frameAt] at hs
      obtain ⟨t, _, rfl⟩ := List.mem_map.mp hs
      exact abs_getD_le_one samples hamp _
    nlinarith [abs_nonneg s, sq_abs s]
  have hsum := List.sum_le_card_nsmul _ 1 hbound
  rw [List.length_map] at hsum
  have hlen : (frameAt samples (i * hop) frameSize).length = frameSize := by
    simp [frameAt]
  rw [hlen, nsmul_eq_mul, mul_one] at hsum
  rw [div_le_one (by positivity)]
  exact hsum

theorem zcr_fold_count_le (frame : List ℝ) (mean eps : ℝ) (l : List ℕ) :
    ∀ init : ℤ × ℕ,
    ((l.foldl (fun (p : ℤ × ℕ) (j : ℕ) =>
      (if sgnDead eps (frame.getD j 0 - mean) ≠ 0 then sgnDead eps (frame.getD j 0 - mean)
       else p.1,
       if p.1 ≠ 0 ∧ sgnDead eps (frame.getD j 0 - mean) ≠ 0
          ∧ p.1 ≠ sgnDead eps (frame.getD j 0 - mean) then p.2 + 1 else p.2)) init).2)
      ≤ init.2 + l.length := by
  induction l with
  | nil => intro init; simp
  | cons x xs ih =>
    intro init
    rw [List.foldl_cons]
    refine le_trans (ih _) ?_
    simp only [List.length_cons]
    by_cases hc : init.1 ≠ 0 ∧ sgnDead eps (frame.getD x 0 - mean) ≠ 0
        ∧ init.1 ≠ sgnDead eps (frame.getD x 0 - mean)
    · rw [if_pos hc]
      omega
    · rw [if_neg hc]
      omega

theorem zcrAt_bounds (samples : List ℝ) (frameSize hop i : ℕ) (hN : 2 ≤ frameSize) :
    0 ≤ zcrAt samples frameSize hop i ∧ zcrAt samples frameSize hop i ≤ 1 := by
  unfold zcrAt
  simp only []
  have hden : (0 : ℝ) < (frameSize : ℝ) - 1 := by
    have : (2 : ℝ) ≤ (frameSize : ℝ) := by exact_mod_cast hN
    linarith
  constructor
  · positivity
  · rw [div_le_one hden]
    have hcnt := zcr_fold_count_le (frameAt samples (i * hop) frameSize)
      ((frameAt samples (i * hop) frameSize).sum / (frameSize : ℝ)) (1/10000)
      (List.range' 1 (frameSize - 1))
      (sgnDead (1/10000) ((frameAt samples (i * hop) frameSize).getD 0 0
        - (frameAt samples (i * hop) frameSize).sum / (frameSize : ℝ)), 0)
    rw [List.length_range'] at hcnt
    have : ((frameSize : ℝ) - 1) = ((frameSize - 1 : ℕ) : ℝ) := by
      have : (1 : ℕ) ≤ frameSize := by omega
      push_cast [Nat.cast_sub this]
      ring
    rw [this]
    exact_mod_cast le_trans hcnt (by omega)

theorem applyHann_length (buf : List ℝ) : (applyHann buf).length = buf.length := by
  simp [applyHann]

theorem frameAt_length (samples : List ℝ) (start N : ℕ) : (frameAt samples start N).length = N := by
  simp [frameAt]

theorem magsAt_length (samples : List ℝ) (frameSize hop i : ℕ) (hN : 2 ≤ frameSize) :
    (magsAt samples frameSize hop i).length = frameSize / 2 := by
  unfold magsAt computeFFT
  rw [applyHann_length, frameAt_length, if_neg (by omega)]
  simp [applyHann_length, frameAt_length]

theorem magsAt_mem_bounds (samples : List ℝ) (hamp : ∀ s ∈ samples, |s| ≤ 1)
    (frameSize hop i : ℕ) :
    ∀ m ∈ magsAt samples frameSize hop i, 0 ≤ m ∧ m ≤ 2 * (frameSize : ℝ) := by
  intro m hm
  unfold magsAt at hm
  have h := computeFFT_mem_bounds (applyHann (frameAt samples (i * hop) frameSize))
    (fun j => applyHann_getD_abs_le _
      (fun j2 => frameAt_getD_abs_le samples hamp _ _ _) j) m hm
  rwa [applyHann_length, frameAt_length] at h

theorem centroidAt_bounds (samples : List ℝ) (hamp : ∀ s ∈ samples, |s| ≤ 1)
    (sampleRate frameSize hop i : ℕ) (hN : 2 ≤ frameSize) :
    0 ≤ centroidAt samples sampleRate frameSize hop i ∧
    centroidAt samples sampleRate frameSize hop i ≤ (sampleRate : ℝ) := by
  unfold centroidAt
  simp only []
  have hmem := magsAt_mem_bounds samples hamp frameSize hop i
  have hms_nonneg : 0 ≤ (magsAt samples frameSize hop i).sum :=
    List.sum_nonneg (fun x hx => (hmem x hx).1)
  have hws_nonneg : 0 ≤ ((List.range (magsAt samples frameSize hop i).length).map
      (fun (k : ℕ) => (k : ℝ) * ((sampleRate : ℝ) / (frameSize : ℝ))
        * (magsAt samples frameSize hop i).getD k 0)).sum := by
    refine List.sum_nonneg ?_
    intro x hx
    obtain ⟨k, _, rfl⟩ := List.mem_map.mp hx
    have hg := getD_nonneg (magsAt samples frameSize hop i) (fun y hy => (hmem y hy).1) k
    positivity
  by_cases hpos : 0 < (magsAt samples frameSize hop i).sum
  · rw [if_pos hpos]
    refine ⟨div_nonneg hws_nonneg hms_nonneg, ?_⟩
    rw [div_le_iff₀ hpos]
    have hkb : ∀ k, (k : ℕ) < (magsAt samples frameSize hop i).length →
        (k : ℝ) * ((sampleRate : ℝ) / (frameSize : ℝ)) ≤ (sampleRate : ℝ) := by
      intro k hk
      have hkN : (k : ℝ) ≤ (frameSize : ℝ) := by
        have hlen := magsAt_length samples frameSize hop i hN
        have : k ≤ frameSize := by omega
        exact_mod_cast this
      have hfz : (frameSize : ℝ) ≠ 0 := by
        have : (0 : ℝ) < (frameSize : ℝ) := by exact_mod_cast (by omega : 0 < frameSize)
        exact ne_of_gt this
      calc (k : ℝ) * ((sampleRate : ℝ) / (frameSize : ℝ))
          ≤ (frameSize : ℝ) * ((sampleRate : ℝ) / (frameSize : ℝ)) :=
            mul_le_mul_of_nonneg_right hkN (by positivity)
        _ = (sampleRate : ℝ) := by field_simp
    have h1 : ((List.range (magsAt samples frameSize hop i).length).map
        (fun (k : ℕ) => (k : ℝ) * ((sampleRate : ℝ) / (frameSize : ℝ))
          * (magsAt samples frameSize hop i).getD k 0)).sum
        ≤ ((List.range (magsAt samples frameSize hop i).length).map
        (fun (k : ℕ) => (sampleRate : ℝ) * (magsAt samples frameSize hop i).getD k 0)).sum := by
      rw [sum_map_range, sum_map_range]
      refine Finset.sum_le_sum ?_
      intro k hk
      exact mul_le_mul_of_nonneg_right (hkb k (Finset.mem_range.mp hk))
        (getD_nonneg _ (fun y hy => (hmem y hy).1) k)
    have h2 : ((List.range (magsAt samples frameSize hop i).length).map
        (fun (k : ℕ) => (sampleRate : ℝ) * (magsAt samples frameSize hop i).getD k 0)).sum
        = (sampleRate : ℝ) * (magsAt samples frameSize hop i).sum := by
      rw [sum_map_range, ← Finset.mul_sum, ← sum_map_range, map_getD_range_self]
    linarith
  · rw [if_neg hpos]
    exact ⟨le_refl 0, Nat.cast_nonneg _⟩

theorem fluxAt_bounds (samples : List ℝ) (hamp : ∀ s ∈ samples, |s| ≤ 1)
    (frameSize hop i : ℕ) (hN : 2 ≤ frameSize) :
    0 ≤ fluxAt samples frameSize hop i ∧ fluxAt samples frameSize hop i ≤ (frameSize : ℝ) ^ 2 := by
  unfold fluxAt
  by_cases hi : i = 0
  · rw [if_pos hi]
    exact ⟨le_refl 0, by positivity⟩
  · rw [if_neg hi]
    simp only []
    have hcur := magsAt_mem_bounds samples hamp frameSize hop i
    have hprev := magsAt_mem_bounds samples hamp frameSize hop (i - 1)
    constructor
    · refine List.sum_nonneg ?_
      intro x hx
      obtain ⟨k, _, rfl⟩ := List.mem_map.mp hx
      by_cases hd : 0 < (magsAt samples frameSize hop i).getD k 0
          - (magsAt samples frameSize hop (i - 1)).getD k 0
      · rw [if_pos hd]
        exact le_of_lt hd
      · rw [if_neg hd]
    · have hterm : ∀ x ∈ (List.range (magsAt samples frameSize hop i).length).map
          (fun (k : ℕ) =>
            if 0 < (magsAt samples frameSize hop i).getD k 0
                - (magsAt samples frameSize hop (i - 1)).getD k 0
            then (magsAt samples frameSize hop i).getD k 0
              - (magsAt samples frameSize hop (i - 1)).getD k 0
            else 0), x ≤ 2 * (frameSize : ℝ) := by
        intro x hx
        obtain ⟨k, _, rfl⟩ := List.mem_map.mp hx
        have h1 : (magsAt samples frameSize hop i).getD k 0 ≤ 2 * (frameSize : ℝ) :=
          getD_le_of_bound _ _ (by positivity) (fun y hy => (hcur y hy).2) k
        have h2 : 0 ≤ (magsAt samples frameSize hop (i - 1)).getD k 0 :=
          getD_nonneg _ (fun y hy => (hprev y hy).1) k
        by_cases hd : 0 < (magsAt samples frameSize hop i).getD k 0
            - (magsAt samples frameSize hop (i - 1)).getD k 0
        · rw [if_pos hd]
          linarith
        · rw [if_neg hd]
          positivity
      have hsum := List.sum_le_card_nsmul _ (2 * (frameSize : ℝ)) hterm
      rw [List.length_map, List.length_range, magsAt_length samples frameSize hop i hN,
        nsmul_eq_mul] at hsum
      have hhalf : ((frameSize / 2 : ℕ) : ℝ) ≤ (frameSize : ℝ) / 2 := Nat.cast_div_le
      have hfpos : (0 : ℝ) ≤ (frameSize : ℝ) := Nat.cast_nonneg _
      rw [magsAt_length samples frameSize hop i hN]
      nlinarith

theorem rawNovelty_mem_bounds (series : List ℝ) (h : ∀ x ∈ series, 0 ≤ x ∧ x ≤ 1) :
    ∀ v ∈ rawNovelty series, 0 ≤ v ∧ v ≤ 1 := by
  intro v hv
  unfold rawNovelty at hv
  obtain ⟨i, _, rfl⟩ := List.mem_map.mp hv
  by_cases hi : i = 0
  · simp [hi]
  · rw [if_neg hi]
    refine ⟨le_max_left 0 _, max_le (by norm_num) ?_⟩
    have h1 : series.getD i 0 ≤ 1 :=
      getD_le_of_bound series 1 (by norm_num) (fun x hx => (h x hx).2) i
    have h2 : 0 ≤ series.getD (i - 1) 0 :=
      getD_nonneg series (fun x hx => (h x hx).1) (i - 1)
    linarith

theorem computeNovelty_mem_bounds (series : List ℝ) (h : ∀ x ∈ series, 0 ≤ x ∧ x ≤ 1) :
    ∀ v ∈ computeNovelty series, 0 ≤ v ∧ v ≤ 1 := by
  intro v hv
  unfold computeNovelty at hv
  obtain ⟨i, hi, rfl⟩ := List.mem_map.mp hv
  have hiL := List.mem_range.mp hi
  simp only []
  rw [foldl_sum_count]
  simp only [zero_add]
  have hraw := rawNovelty_mem_bounds series h
  have hcnt : 1 ≤ min (series.length - 1) (i + 5) + 1 - (i - 5) := by omega
  have hterms : ∀ x ∈ (List.range' (i - 5) (min (series.length - 1) (i + 5) + 1 - (i - 5))).map
      (fun j => (rawNovelty series).getD j 0), 0 ≤ x ∧ x ≤ 1 := by
    intro x hx
    obtain ⟨j, _, rfl⟩ := List.mem_map.mp hx
    exact ⟨getD_nonneg _ (fun y hy => (hraw y hy).1) j,
      getD_le_of_bound _ 1 (by norm_num) (fun y hy => (hraw y hy).2) j⟩
  have hlenm : ((List.range' (i - 5) (min (series.length - 1) (i + 5) + 1 - (i - 5))).map
      (fun j => (rawNovelty series).getD j 0)).length
      = min (series.length - 1) (i + 5) + 1 - (i - 5) := by
    rw [List.length_map, List.length_range']
  have hcpos : (0 : ℝ) < ((List.range' (i - 5)
      (min (series.length - 1) (i + 5) + 1 - (i - 5))).length : ℝ) := by
    rw [List.length_range']
    exact_mod_cast hcnt
  constructor
  · refine div_nonneg (List.sum_nonneg (fun x hx => (hterms x hx).1)) ?_
    exact le_of_lt hcpos
  · rw [div_le_one hcpos]
    have hsum := List.sum_le_card_nsmul _ 1 (fun x hx => (hterms x hx).2)
    rw [hlenm, nsmul_eq_mul, mul_one] at hsum
    rw [List.length_range']
    exact hsum

/-- C8 (confirmed): for every sample buffer with amplitudes in [-1, 1] and
every sample rate and frame duration, extractAllFeatures returns five series
of one common positive length, and every per-frame value is a well-defined
real number within explicit finite bounds — energy, zcr and novelty in
[0, 1], centroid in [0, sampleRate], spectral flux in [0, frameSize²] — so no
value is ever NaN or infinite. -/
theorem extractAllFeatures_total_and_bounded (samples : List ℝ) (sampleRate : ℕ)
    (frameSec : ℚ) (hamp : ∀ s ∈ samples, |s| ≤ 1) :
    ((extractAllFeatures samples sampleRate frameSec).features.energy.length
        = (extractAllFeatures samples sampleRate frameSec).nFrames ∧
     (extractAllFeatures samples sampleRate frameSec).features.centroid.length
        = (extractAllFeatures samples sampleRate frameSec).nFrames ∧
     (extractAllFeatures samples sampleRate frameSec).features.zcr.length
        = (extractAllFeatures samples sampleRate frameSec).nFrames ∧
     (extractAllFeatures samples sampleRate frameSec).features.spectralFlux.length
        = (extractAllFeatures samples sampleRate frameSec).nFrames ∧
     (extractAllFeatures samples sampleRate frameSec).features.novelty.length
        = (extractAllFeatures samples sampleRate frameSec).nFrames) ∧
    1 ≤ (extractAllFeatures samples sampleRate frameSec).nFrames ∧
    (∀ v ∈ (extractAllFeatures samples sampleRate frameSec).features.energy,
      0 ≤ v ∧ v ≤ 1) ∧
    (∀ v ∈ (extractAllFeatures samples sampleRate frameSec).features.zcr,
      0 ≤ v ∧ v ≤ 1) ∧
    (∀ v ∈ (extractAllFeatures samples sampleRate frameSec).features.centroid,
      0 ≤ v ∧ v ≤ (sampleRate : ℝ)) ∧
    (∀ v ∈ (extractAllFeatures samples sampleRate frameSec).features.spectralFlux,
      0 ≤ v ∧ v ≤ ((extractAllFeatures samples sampleRate frameSec).frameSize : ℝ) ^ 2) ∧
    (∀ v ∈ (extractAllFeatures samples sampleRate frameSec).features.novelty,
      0 ≤ v ∧ v ≤ 1) := by
  have hN2 : 2 ≤ frameSizeE sampleRate frameSec := two_le_frameSizeE sampleRate frameSec
  have hE : ∀ v ∈ (extractAllFeatures samples sampleRate frameSec).features.energy,
      0 ≤ v ∧ v ≤ 1 := by
    intro v hv
    obtain ⟨i, _, rfl⟩ := List.mem_map.mp hv
    exact energyAt_bounds samples hamp _ _ i (by omega)
  refine ⟨extract_lengths samples sampleRate frameSec, one_le_nFramesOf _ _ _, hE, ?_, ?_, ?_, ?_⟩
  · intro v hv
    obtain ⟨i, _, rfl⟩ := List.mem_map.mp hv
    exact zcrAt_bounds samples _ _ i hN2
  · intro v hv
    obtain ⟨i, _, rfl⟩ := List.mem_map.mp hv
    exact centroidAt_bounds samples hamp sampleRate _ _ i hN2
  · intro v hv
    obtain ⟨i, _, rfl⟩ := List.mem_map.mp hv
    exact fluxAt_bounds samples hamp _ _ i hN2
  · intro v hv
    exact computeNovelty_mem_bounds _ hE v hv

/-- Closed instance of the C8 theorem at a concrete input, discharging the
amplitude hypothesis. -/
theorem extractAllFeatures_total_and_bounded_witness :
    (∀ s ∈ ([] : List ℝ), |s| ≤ 1) ∧
    (1 ≤ (extractAllFeatures ([] : List ℝ) 8 (1/10)).nFrames ∧
     ∀ v ∈ (extractAllFeatures ([] : List ℝ) 8 (1/10)).features.energy, 0 ≤ v ∧ v ≤ 1) :=
  ⟨fun s hs => by simp at hs,
   ⟨(extractAllFeatures_total_and_bounded [] 8 (1/10) (fun s hs => by simp at hs)).2.1,
    (extractAllFeatures_total_and_bounded [] 8 (1/10) (fun s hs => by simp at hs)).2.2.1⟩⟩

end Hookshot
